import Mathlib

/-!
Verification of the CLI-FRONTEND-RUST template generator.

This file gives a shallow embedding of the core pure logic of the
repository and proves (or refutes) the frozen claims about it.

Conventions of the embedding:

* Rust `String`/`&str` become Lean `String` (a wrapper around `List Char`);
  byte-index slicing in the source is modelled at character granularity,
  which coincides with the source on ASCII data.
* Rust character classes (`is_uppercase`, `is_lowercase`, `is_numeric`,
  `is_alphanumeric`, `is_alphabetic`, `is_whitespace`) and the case maps
  (`to_lowercase`, `to_uppercase`) are modelled by their ASCII fragments
  (`isUpperA`, `isLowerA`, ... below), matching the Unicode functions on
  ASCII input.
* `HashMap<String, V>` becomes an association list `List (String × V)`
  with first-match lookup (`alookup`) and replace-or-append insertion
  (`amInsert`); `serde_json::Map` is modelled the same way with values in
  `JsonVal` (restricted to the two variants the code stores).
* Clock, randomness and the package version (`Utc::now()`, `Uuid::new_v4()`,
  `env!("CARGO_PKG_VERSION")`) are passed in explicitly as a `RuntimeEnv`
  record of opaque strings; the filesystem is passed in as explicit data.
* Fallible or effectful wrappers (directory walking, file I/O, printing)
  are out of the embedding; the pure decision logic they surround is
  embedded exactly.
-/

/-! ## ASCII character model

`Char.toNat` based models of the Rust `char` classification methods,
restricted to ASCII (the data the generator manipulates). -/

/-- Models Rust `char::is_uppercase` on ASCII: the range `A`..`Z`. -/
def isUpperA (c : Char) : Bool := 65 ≤ c.toNat && c.toNat ≤ 90

/-- Models Rust `char::is_lowercase` on ASCII: the range `a`..`z`. -/
def isLowerA (c : Char) : Bool := 97 ≤ c.toNat && c.toNat ≤ 122

/-- Models Rust `char::is_numeric` on ASCII: the range `0`..`9`. -/
def isDigitA (c : Char) : Bool := 48 ≤ c.toNat && c.toNat ≤ 57

/-- Models Rust `char::is_alphabetic` on ASCII. -/
def isAlphaA (c : Char) : Bool := isUpperA c || isLowerA c

/-- Models Rust `char::is_alphanumeric` on ASCII. -/
def isAlnumA (c : Char) : Bool := isUpperA c || isLowerA c || isDigitA c

/-- Models Rust `char::is_whitespace` on ASCII: space and the control
whitespace characters 9..13. -/
def isWsA (c : Char) : Bool := c.toNat = 32 || (9 ≤ c.toNat && c.toNat ≤ 13)

/-- Models Rust `char::to_lowercase` on ASCII (a single output char). -/
def toLowerA (c : Char) : Char := if isUpperA c then Char.ofNat (c.toNat + 32) else c

/-- Models Rust `char::to_uppercase` on ASCII (a single output char). -/
def toUpperA (c : Char) : Char := if isLowerA c then Char.ofNat (c.toNat - 32) else c

/-! ## Generic string-manipulation primitives

Models of the `str` methods the source uses (`starts_with`, `ends_with`,
`trim`, `trim_matches`, `split`, `split_once`, `find` + slicing,
`replace`), written over `List Char`. -/

/-- Models `str::starts_with` (prefix test). -/
def chPrefix : List Char → List Char → Bool
  | [], _ => true
  | _ :: _, [] => false
  | p :: ps, c :: cs => p = c && chPrefix ps cs

/-- Models `str::ends_with` (suffix test). -/
def chSuffix (pat l : List Char) : Bool := chPrefix pat.reverse l.reverse

/-- Models `str::trim`: drop leading and trailing whitespace. -/
def chTrim (l : List Char) : List Char :=
  ((l.dropWhile isWsA).reverse.dropWhile isWsA).reverse

/-- Models `str::trim_matches(q)`: drop leading and trailing runs of `q`. -/
def trimMatchesChar (l : List Char) (q : Char) : List Char :=
  ((l.dropWhile (fun c => c = q)).reverse.dropWhile (fun c => c = q)).reverse

/-- Models `str::split(p)` for a character predicate: the list of (possibly
empty) segments between separator characters.  Always returns at least one
segment, like the Rust iterator. -/
def splitP (p : Char → Bool) : List Char → List (List Char)
  | [] => [[]]
  | c :: cs =>
    if p c then [] :: splitP p cs
    else
      match splitP p cs with
      | [] => [[c]]
      | w :: ws => (c :: w) :: ws

/-- Models `str::split_once(sep)`: split at the first occurrence of `sep`,
`none` when absent. -/
def splitAtFirst (sep : Char) : List Char → Option (List Char × List Char)
  | [] => none
  | c :: cs =>
    if c = sep then some ([], cs)
    else
      match splitAtFirst sep cs with
      | some (pre, post) => some (c :: pre, post)
      | none => none

/-- Models `value.split(sep).next().unwrap_or(value)`: the prefix before the
first occurrence of `sep` (the whole list when `sep` is absent). -/
def takeUntilChar (sep : Char) (l : List Char) : List Char :=
  l.takeWhile (fun c => !(c = sep))

/-- Models `Vec::join(sep)` on lists of characters. -/
def joinSep (sep : List Char) : List (List Char) → List Char
  | [] => []
  | [w] => w
  | w :: ws => w ++ sep ++ joinSep sep ws

/-- One-character-to-one-character `str::replace`, as used by the source for
`replace('_', "-")` and `replace('-', "_")`. -/
def replaceChar (a b : Char) (l : List Char) : List Char :=
  l.map (fun c => if c = a then b else c)

/-- Bool test for an infix occurrence of `pat` in `l` (used only to state
disequalities of constructed key names). -/
def listInfix (pat : List Char) : List Char → Bool
  | [] => pat.isEmpty
  | c :: cs => chPrefix pat (c :: cs) || listInfix pat cs

/-- Models `str::to_lowercase` on ASCII. -/
def lowerStr (s : String) : String := String.mk (s.data.map toLowerA)

/-- Models `str::to_uppercase` on ASCII. -/
def upperStr (s : String) : String := String.mk (s.data.map toUpperA)

/-! ## Association-list model of the maps used by the source -/

/-- Models `HashMap::get` / map indexing: first-match lookup. -/
def alookup {β : Type} : List (String × β) → String → Option β
  | [], _ => none
  | p :: rest, k => if p.1 = k then some p.2 else alookup rest k

/-- Models map insertion (`HashMap::insert` / `serde_json::Map::insert`):
replace the value of an existing key in place, otherwise append. -/
def amInsert {β : Type} : List (String × β) → String → β → List (String × β)
  | [], k, v => [(k, v)]
  | p :: rest, k, v => if p.1 = k then (k, v) :: rest else p :: amInsert rest k v

/-- The `serde_json::Value` variants the renderer actually stores. -/
inductive JsonVal : Type where
  | str : String → JsonVal
  | bool : Bool → JsonVal
deriving DecidableEq, Repr

/-- Fold a list of key/value writes into a map by repeated insertion. -/
def foldInserts {β : Type} (ws : List (String × β)) (m : List (String × β)) :
    List (String × β) :=
  ws.foldl (fun acc w => amInsert acc w.1 w.2) m

/-- The number of writes in `ws` that target the key `k`. -/
def keyCount {β : Type} (ws : List (String × β)) (k : String) : Nat :=
  (ws.filter (fun w => decide (w.1 = k))).length

/-! ## Embedding of `src/template_engine/naming.rs`

Case conversions and smart React name derivation.  Each definition mirrors
one function of the source file; the `is_*_case` fast paths and the word
splitting pipeline are reproduced exactly. -/

/-- The word splitter used by the conversions:
`s.split(|c| !c.is_alphanumeric()).filter(|s| !s.is_empty())`. -/
def wordsOf (cs : List Char) : List (List Char) :=
  (splitP (fun c => !isAlnumA c) cs).filter (fun w => !w.isEmpty)

/-- Models `is_pascal_case` (naming.rs): nonempty, uppercase first char,
all alphanumeric, and no `_`/`-`/space. -/
def is_pascal_case (s : String) : Bool :=
  match s.data with
  | [] => false
  | first :: _ =>
    isUpperA first && s.data.all isAlnumA &&
      !(s.data.any (fun c => c = '_')) && !(s.data.any (fun c => c = '-')) &&
      !(s.data.any (fun c => c = ' '))

/-- Capitalisation of one word:
`first.to_uppercase().chain(rest.to_lowercase().chars())`. -/
def capitalizeWord : List Char → List Char
  | [] => []
  | c :: rest => toUpperA c :: rest.map toLowerA

/-- Models `to_pascal_case` (naming.rs). -/
def to_pascal_case (s : String) : String :=
  if is_pascal_case s then s
  else String.mk ((wordsOf s.data).map capitalizeWord).flatten

/-- Models `is_camel_case` (naming.rs). -/
def is_camel_case (s : String) : Bool :=
  match s.data with
  | [] => false
  | first :: _ =>
    isLowerA first && s.data.all isAlnumA &&
      !(s.data.any (fun c => c = '_')) && !(s.data.any (fun c => c = '-')) &&
      !(s.data.any (fun c => c = ' '))

/-- Models `to_camel_case` (naming.rs). -/
def to_camel_case (s : String) : String :=
  if is_camel_case s then s
  else
    match (to_pascal_case s).data with
    | [] => ""
    | first :: rest => String.mk (toLowerA first :: rest)

/-- Models `is_snake_case` (naming.rs). -/
def is_snake_case (s : String) : Bool :=
  !s.data.isEmpty &&
    s.data.all (fun c => isLowerA c || isDigitA c || c = '_') &&
    !(s.data.any (fun c => c = '-')) && !(s.data.any (fun c => c = ' ')) &&
    s.data.any isAlphaA

/-- The first pass of `to_snake_case`: lowercase every character and insert
`_` before each uppercase character at index `> 0`
(`chars().enumerate().flat_map(...)`). -/
def snakeStep1Aux : Nat → List Char → List Char
  | _, [] => []
  | i, c :: cs =>
    (if isUpperA c && decide (0 < i) then ['_', toLowerA c] else [toLowerA c]) ++
      snakeStep1Aux (i + 1) cs

def snakeStep1 (cs : List Char) : List Char := snakeStep1Aux 0 cs

/-- Models `to_snake_case` (naming.rs): fast path, then the two-pass
pipeline (case-insertion pass, then split/filter/join on `"_"`). -/
def to_snake_case (s : String) : String :=
  if is_snake_case s then s
  else String.mk (joinSep ['_'] (wordsOf (snakeStep1 s.data)))

/-- Models `is_kebab_case` (naming.rs). -/
def is_kebab_case (s : String) : Bool :=
  !s.data.isEmpty &&
    s.data.all (fun c => isLowerA c || isDigitA c || c = '-') &&
    !(s.data.any (fun c => c = '_')) && !(s.data.any (fun c => c = ' ')) &&
    s.data.any isAlphaA

/-- The `snake.replace('_', "-")` step of `to_kebab_case` (and the claim's
`.replace('_','-')`). -/
def replaceUnderscores (s : String) : String :=
  String.mk (replaceChar '_' '-' s.data)

/-- Models `to_kebab_case` (naming.rs): fast path, then convert the snake
form, replacing `_` by `-` only when an underscore is present. -/
def to_kebab_case (s : String) : String :=
  if is_kebab_case s then s
  else
    let snake := to_snake_case s
    if snake.data.any (fun c => c = '_') then replaceUnderscores snake else snake

/-- The result record of `process_smart_names` (naming.rs). -/
structure SmartNames where
  hook_name : String
  context_name : String
  provider_name : String
  page_name : String
deriving DecidableEq, Repr

/-- Models `process_smart_names` (template_engine/naming.rs:311-355).  Note:
the hook branch keeps the input unchanged whenever its lowercase form starts
with `"use"`; there is no check of the 4th character here. -/
def process_smart_names (name : String) : SmartNames :=
  let name_lower := lowerStr name
  let hook_name :=
    if chPrefix "use".data name_lower.data then name
    else "use" ++ to_pascal_case name
  let context_name :=
    if chSuffix "context".data name_lower.data then name
    else to_pascal_case name ++ "Context"
  let provider_name :=
    if chSuffix "provider".data name_lower.data then name
    else
      let base_name :=
        if chSuffix "context".data name_lower.data then
          to_pascal_case (String.mk (name.data.take (name.data.length - 7)))
        else to_pascal_case name
      base_name ++ "Provider"
  let page_name :=
    if chSuffix "page".data name_lower.data then name
    else to_pascal_case name ++ "Page"
  ⟨hook_name, context_name, provider_name, page_name⟩

/-! ## Embedding of `src/template_engine/generator.rs` -/

/-- Models `is_truthy` (generator.rs): case-insensitive `true`/`yes`/`1`. -/
def is_truthy (value : String) : Bool :=
  let lv := lowerStr value
  if lv = "true" then true else if lv = "yes" then true else if lv = "1" then true else false

/-- Models `evaluate_file_condition` (generator.rs:82-117).  The condition is
trimmed; `always`/`default` are true; a `var_` condition first tries the
whole suffix as a variable name (truthiness test), then splits the suffix at
its first underscore into a variable name and an expected value, compared
verbatim and with underscores converted to hyphens; anything else is `false`
(the source also prints a warning, which the embedding drops). -/
def evaluate_file_condition (condition : String)
    (vars : List (String × String)) : Bool :=
  let cond := chTrim condition.data
  if cond = "always".data then true
  else if cond = "default".data then true
  else if chPrefix "var_".data cond then
    let var_part := cond.drop 4
    match alookup vars (String.mk var_part) with
    | some value => is_truthy value
    | none =>
      match splitAtFirst '_' var_part with
      | some (pre, post) =>
        let expected_value := replaceChar '_' '-' post
        match alookup vars (String.mk pre) with
        | some v => v = String.mk expected_value || v = String.mk post
        | none => false
      | none => false
  else false

/-- Models the per-file inclusion decision of `process_template_directory`
(template_engine/mod.rs:586-598): with a non-empty filter map, a listed file
is generated according to its condition and an unlisted file defaults to
`true`; with no filters every file is generated. -/
def should_generate_file (file_filters : List (String × String))
    (vars : List (String × String)) (filename : String) : Bool :=
  if !file_filters.isEmpty then
    match alookup file_filters filename with
    | some condition => evaluate_file_condition condition vars
    | none => true
  else true

/-! ## Embedding of `src/template_engine/config.rs` -/

/-- Models `VariableOption` (config.rs). -/
structure VariableOption where
  var_type : String
  possible_values : List String
  description : String
deriving DecidableEq, Repr

/-- Models `TemplateMetadata` (config.rs). -/
structure TemplateMetadata where
  name : String
  description : String
deriving DecidableEq, Repr

/-- Models `TemplateConfig` (config.rs); the `HashMap` fields become
association lists (one fixed iteration order of the hash map); the source field `variables` is called `vars` here because `variables` is reserved in Lean. -/
structure TemplateConfig where
  vars : List (String × String)
  environment : String
  enable_timestamps : Bool
  enable_uuid : Bool
  file_filters : List (String × String)
  metadata : TemplateMetadata
  options_metadata : List (String × VariableOption)
deriving DecidableEq, Repr

/-- Models `TemplateConfig::default()`; the ambient `NODE_ENV` environment
variable is passed in explicitly. -/
def TemplateConfig.defaultCfg (node_env : Option String) : TemplateConfig :=
  { vars := []
    environment := node_env.getD "development"
    enable_timestamps := true
    enable_uuid := true
    file_filters := []
    metadata := ⟨"", ""⟩
    options_metadata := [] }

/-! ## Embedding of `src/template_engine/renderer.rs` -/

/-- The runtime inputs of `create_template_data` that the source reads
ambiently (`Utc::now()` formatted five ways, `Uuid::new_v4()` formatted two
ways, `env!("CARGO_PKG_VERSION")`), passed in explicitly. -/
structure RuntimeEnv where
  now_rfc3339 : String
  now_iso : String
  date : String
  time : String
  year : String
  uuid : String
  uuid_simple : String
  cargo_pkg_version : String
deriving DecidableEq, Repr

/-- The `possible_value.replace('-', "_")` key sanitisation of
`generate_boolean_helpers`. -/
def sanitizeValue (s : String) : String := String.mk (replaceChar '-' '_' s.data)

/-- Models `generate_boolean_helpers` (renderer.rs:73-102): per options
entry, insert one `{var}_is_{sanitizedValue}` boolean per possible value
(when the variable has a current value), and one `{var}_bool` for
boolean-typed vars. -/
def generate_boolean_helpers (vars : List (String × String))
    (options_metadata : List (String × VariableOption))
    (data_map : List (String × JsonVal)) : List (String × JsonVal) :=
  options_metadata.foldl
    (fun m p =>
      let m1 :=
        if !p.2.possible_values.isEmpty then
          match alookup vars p.1 with
          | some current =>
            p.2.possible_values.foldl
              (fun acc pv =>
                amInsert acc (p.1 ++ "_is_" ++ sanitizeValue pv)
                  (JsonVal.bool (decide (current = pv))))
              m
          | none => m
        else m
      if p.2.var_type = "boolean" then
        match alookup vars p.1 with
        | some v => amInsert m1 (p.1 ++ "_bool") (JsonVal.bool (is_truthy v))
        | none => m1
      else m1)
    data_map

/-- The list of key/value writes performed by one options entry of
`generate_boolean_helpers`, in execution order. -/
def helperWritesFor (vars : List (String × String)) (var_name : String)
    (meta : VariableOption) : List (String × JsonVal) :=
  (if !meta.possible_values.isEmpty then
    match alookup vars var_name with
    | some current =>
      meta.possible_values.map
        (fun pv => (var_name ++ "_is_" ++ sanitizeValue pv,
          JsonVal.bool (decide (current = pv))))
    | none => []
  else []) ++
  (if meta.var_type = "boolean" then
    match alookup vars var_name with
    | some v => [(var_name ++ "_bool", JsonVal.bool (is_truthy v))]
    | none => []
  else [])

/-- All key/value writes of `generate_boolean_helpers`, in execution order. -/
def helperWrites (vars : List (String × String))
    (options_metadata : List (String × VariableOption)) : List (String × JsonVal) :=
  (options_metadata.map (fun p => helperWritesFor vars p.1 p.2)).flatten

/-- Models `create_template_data` (renderer.rs:135-172): the base `json!`
object in source order, then the user vars of the config inserted over
it, then the dynamic boolean helpers. -/
def create_template_data (name : String) (config : TemplateConfig)
    (env : RuntimeEnv) : List (String × JsonVal) :=
  let processed_names := process_smart_names name
  let data : List (String × JsonVal) := [
    ("name", JsonVal.str name),
    ("pascal_name", JsonVal.str (to_pascal_case name)),
    ("snake_name", JsonVal.str (to_snake_case name)),
    ("kebab_name", JsonVal.str (to_kebab_case name)),
    ("camel_name", JsonVal.str (to_camel_case name)),
    ("upper_name", JsonVal.str (upperStr name)),
    ("hook_name", JsonVal.str processed_names.hook_name),
    ("context_name", JsonVal.str processed_names.context_name),
    ("provider_name", JsonVal.str processed_names.provider_name),
    ("page_name", JsonVal.str processed_names.page_name),
    ("environment", JsonVal.str config.environment),
    ("timestamp", JsonVal.str (if config.enable_timestamps then env.now_rfc3339 else "")),
    ("timestamp_iso", JsonVal.str (if config.enable_timestamps then env.now_iso else "")),
    ("date", JsonVal.str (if config.enable_timestamps then env.date else "")),
    ("time", JsonVal.str (if config.enable_timestamps then env.time else "")),
    ("year", JsonVal.str (if config.enable_timestamps then env.year else "")),
    ("uuid", JsonVal.str (if config.enable_uuid then env.uuid else "")),
    ("uuid_simple", JsonVal.str (if config.enable_uuid then env.uuid_simple else "")),
    ("version", JsonVal.str env.cargo_pkg_version),
    ("generator_name", JsonVal.str "CLI Frontend Generator"),
    ("generated", JsonVal.bool true)]
  let data := config.vars.foldl (fun m kv => amInsert m kv.1 (JsonVal.str kv.2)) data
  generate_boolean_helpers config.vars config.options_metadata data

/-- A fixed sample of runtime inputs, for concrete evaluations. -/
def sampleEnv : RuntimeEnv :=
  { now_rfc3339 := "2024-01-01T00:00:00+00:00"
    now_iso := "2024-01-01T00:00:00.000Z"
    date := "2024-01-01"
    time := "00:00:00"
    year := "2024"
    uuid := "00000000-0000-4000-8000-000000000000"
    uuid_simple := "00000000000040008000000000000000"
    cargo_pkg_version := "1.0.0" }

/-! ## Embedding of the manifest parser (`src/template_engine/mod.rs`) -/

/-- The double-quote character, written numerically to keep the source text
free of quote characters inside literals. -/
def dquoteChar : Char := Char.ofNat 34

/-- The single-quote character. -/
def squoteChar : Char := Char.ofNat 39

/-- The newline character. -/
def nlChar : Char := Char.ofNat 10

/-- The carriage-return character. -/
def crChar : Char := Char.ofNat 13

/-- Strip one trailing carriage return, as `str::lines` does per line. -/
def stripTrailingCR (l : List Char) : List Char :=
  match l.getLast? with
  | some c => if c = crChar then l.dropLast else l
  | none => l

/-- Models `str::lines`: split on newline, drop one trailing empty segment,
and strip one trailing carriage return per line. -/
def rustLines (s : String) : List String :=
  let parts := splitP (fun c => c = nlChar) s.data
  let parts := match parts.getLast? with
    | some [] => parts.dropLast
    | _ => parts
  parts.map (fun l => String.mk (stripTrailingCR l))

/-- Models `str::strip_suffix`. -/
def stripSuffixStr (s : String) (suf : List Char) : Option String :=
  if chSuffix suf s.data then some (String.mk (s.data.take (s.data.length - suf.length)))
  else none

/-- Models `str::strip_prefix`. -/
def stripPrefixStr (s : String) (pre : List Char) : Option String :=
  if chPrefix pre s.data then some (String.mk (s.data.drop pre.length)) else none

/-- Models `str::parse::<bool>()`: exactly `true` or `false`. -/
def parseBoolRust (value : String) : Option Bool :=
  if value = "true" then some true else if value = "false" then some false else none

/-- Models `parse_metadata_section` (mod.rs:518-524): assign `name` or
`description`, ignore other keys.  Note that each occurrence assigns, so a
later duplicate key overwrites an earlier one. -/
def parse_metadata_section (config : TemplateConfig) (key value : String) :
    TemplateConfig :=
  if key = "name" then { config with metadata := { config.metadata with name := value } }
  else if key = "description" then
    { config with metadata := { config.metadata with description := value } }
  else config

/-- Models `entry(var_name).or_default()` followed by a field update on the
options map. -/
def orDefaultUpdate (os : List (String × VariableOption)) (k : String)
    (f : VariableOption → VariableOption) : List (String × VariableOption) :=
  match os with
  | [] => [(k, f ⟨"", [], ""⟩)]
  | p :: rest => if p.1 = k then (p.1, f p.2) :: rest else p :: orDefaultUpdate rest k f

/-- Models `parse_options_section` (mod.rs:487-515): `_options`, `_type` and
`_description` suffixes update the option metadata, any other key is a
default variable value. -/
def parse_options_section (config : TemplateConfig) (key value : String) :
    TemplateConfig :=
  match stripSuffixStr key "_options".data with
  | some var_name =>
    let possible_values :=
      ((splitP (fun c => c = ',') value.data).map (fun w => String.mk (chTrim w))).filter
        (fun v => !v.isEmpty)
    let om := orDefaultUpdate config.options_metadata var_name
      (fun o => { o with possible_values := possible_values })
    { config with options_metadata := om }
  | none =>
    match stripSuffixStr key "_type".data with
    | some var_name =>
      let om := orDefaultUpdate config.options_metadata var_name
        (fun o => { o with var_type := value })
      { config with options_metadata := om }
    | none =>
      match stripSuffixStr key "_description".data with
      | some var_name =>
        let om := orDefaultUpdate config.options_metadata var_name
          (fun o => { o with description := value })
        { config with options_metadata := om }
      | none => { config with vars := amInsert config.vars key value }

/-- Models `parse_root_config` (mod.rs:527-540). -/
def parse_root_config (config : TemplateConfig) (key value : String) :
    TemplateConfig :=
  if key = "environment" then { config with environment := value }
  else if key = "enable_timestamps" then
    { config with enable_timestamps := (parseBoolRust value).getD true }
  else if key = "enable_uuid" then
    { config with enable_uuid := (parseBoolRust value).getD true }
  else
    match stripPrefixStr key "var_".data with
    | some var_name => { config with vars := amInsert config.vars var_name value }
    | none => config

/-- One iteration of the line loop of `parse_template_config`
(mod.rs:449-484), acting on the pair (config, current section). -/
def parse_config_line (st : TemplateConfig × String) (rawline : String) :
    TemplateConfig × String :=
  let config := st.1
  let current_section := st.2
  let line := chTrim rawline.data
  if chPrefix ['#'] line then st
  else if line.isEmpty then st
  else if chPrefix ['['] line && chSuffix [']'] line then
    (config, String.mk (line.drop 1).dropLast)
  else
    match splitAtFirst '=' line with
    | some (kraw, vraw) =>
      let key := String.mk (chTrim kraw)
      let value0 := takeUntilChar '#' vraw
      let value := String.mk (trimMatchesChar (trimMatchesChar (chTrim value0) dquoteChar)
        squoteChar)
      if current_section = "metadata" then (parse_metadata_section config key value, current_section)
      else if current_section = "options" then (parse_options_section config key value, current_section)
      else if current_section = "files" then
        ({ config with file_filters := amInsert config.file_filters key value }, current_section)
      else (parse_root_config config key value, current_section)
    | none => st

/-- Models `parse_template_config` (mod.rs:449-484): fold the line parser
over the lines of the manifest, starting from the default config and the
empty section.  The source wraps the result in `Ok`, so the parse is total. -/
def parse_template_config (content : String) (node_env : Option String) :
    TemplateConfig :=
  ((rustLines content).foldl parse_config_line (TemplateConfig.defaultCfg node_env, "")).1

/-! ## Embedding of `template_exists` and `list_templates`
(`src/template_engine/mod.rs`) -/

/-- One entry of the templates directory, as observed by the source:
its file name and whether it is a directory. -/
structure DirEntry where
  name : String
  isDir : Bool
deriving DecidableEq, Repr

/-- Models `template_exists` (mod.rs:160-162):
`templates_dir.join(template_type).exists()` is true when any entry of
the templates directory (file or directory, hidden or not) has that name;
it is false when the templates directory itself is absent. -/
def template_exists (dir : Option (List DirEntry)) (template_type : String) : Bool :=
  match dir with
  | none => false
  | some entries => entries.any (fun e => e.name = template_type)

/-- Lexicographic order on character lists; models the `Ord` instance of
Rust `String` (byte-wise lexicographic, which is char-wise on ASCII). -/
def chLe : List Char → List Char → Bool
  | [], _ => true
  | _ :: _, [] => false
  | a :: as, b :: bs => if a = b then chLe as bs else decide (a.toNat < b.toNat)

/-- String comparison used by `Vec::<String>::sort`. -/
def strLe (s t : String) : Bool := chLe s.data t.data

/-- Ordered insertion into a sorted list of strings. -/
def insertSorted (s : String) : List String → List String
  | [] => [s]
  | t :: ts => if strLe s t then s :: t :: ts else t :: insertSorted s ts

/-- Insertion sort with `strLe`; models `Vec::<String>::sort`. -/
def sortStrings : List String → List String
  | [] => []
  | s :: ss => insertSorted s (sortStrings ss)

/-- Models `list_templates` (mod.rs:185-205): empty when the directory is
absent, otherwise the names of the non-hidden sub-directories, sorted. -/
def list_templates (dir : Option (List DirEntry)) : List String :=
  match dir with
  | none => []
  | some entries =>
    sortStrings
      ((entries.filter (fun e => e.isDir && !(chPrefix ['.'] e.name.data))).map
        (fun e => e.name))

/-! ## Embedding of `src/config/architecture.rs` -/

/-- The outcome of `ArchitectureConfig::load_from_file`, up to JSON parsing:
either the hard `NotFound` error of the `bail!` branch, or the name and raw
content of the manifest file that gets parsed.  The spec treats the JSON
syntax as already parsed at the boundary, so `parse_json` is not part of
the embedding. -/
inductive ArchLoad where
  | hardError : ArchLoad
  | loaded : String → String → ArchLoad
deriving DecidableEq, Repr

/-- The file name computed by `load_from_file` for an architecture name. -/
def arch_manifest_filename (architecture_name : String) : String :=
  if architecture_name = "default" then "default.json"
  else architecture_name ++ ".json"

/-- Models `ArchitectureConfig::load_from_file` (architecture.rs:36-75) over
an explicit directory content (file name to file content): load the
requested manifest when present, otherwise fall back to `default.json`,
otherwise fail hard. -/
def load_from_file (fs : List (String × String)) (architecture_name : String) :
    ArchLoad :=
  let filename := arch_manifest_filename architecture_name
  match alookup fs filename with
  | some content => ArchLoad.loaded filename content
  | none =>
    match alookup fs "default.json" with
    | some content => ArchLoad.loaded "default.json" content
    | none => ArchLoad.hardError

/-- A manifest value composed of alphanumerics, hyphens and underscores: no
whitespace, comment marker, quote, bracket or separator characters, so the
parser passes it through unchanged. -/
def cleanConfValue (v : String) : Bool :=
  v.data.all (fun c => isAlnumA c || c = '-' || c = '_')

/-- Scan for hyphen placement: every hyphen must be followed by a
non-hyphen character (no trailing hyphen, no two consecutive hyphens). -/
def goodHyph : List Char → Bool
  | [] => true
  | c :: cs =>
    (if c = '-' then
      (match cs with
       | [] => false
       | d :: _ => decide (d ≠ '-'))
     else true) && goodHyph cs

/-- No leading hyphen. -/
def noLeadHyphen : List Char → Bool
  | [] => true
  | c :: _ => !(c = '-')

/-- Well-placed hyphens: none leading, none trailing, none doubled. -/
def goodKebabHyphens (cs : List Char) : Bool := noLeadHyphen cs && goodHyph cs

/-! ## Supporting lemmas -/

theorem char_eq_of_toNat_eq {c d : Char} (h : c.toNat = d.toNat) : c = d :=
  Char.eq_of_val_eq (UInt32.ext (by simpa [Char.toNat] using h))

theorem toNat_ofNat_small (n : Nat) (h : n < 55296) : (Char.ofNat n).toNat = n := by
  have hv : n.isValidChar := Or.inl h
  simp only [Char.ofNat, dif_pos hv]
  rfl

theorem isUpperA_iff (c : Char) : isUpperA c = true ↔ (65 ≤ c.toNat ∧ c.toNat ≤ 90) := by
  simp [isUpperA]

theorem isLowerA_iff (c : Char) : isLowerA c = true ↔ (97 ≤ c.toNat ∧ c.toNat ≤ 122) := by
  simp [isLowerA]

theorem isDigitA_iff (c : Char) : isDigitA c = true ↔ (48 ≤ c.toNat ∧ c.toNat ≤ 57) := by
  simp [isDigitA]

theorem isAlphaA_iff (c : Char) :
    isAlphaA c = true ↔ ((65 ≤ c.toNat ∧ c.toNat ≤ 90) ∨ (97 ≤ c.toNat ∧ c.toNat ≤ 122)) := by
  simp [isAlphaA, isUpperA, isLowerA]

theorem isAlnumA_iff (c : Char) :
    isAlnumA c = true ↔ ((65 ≤ c.toNat ∧ c.toNat ≤ 90) ∨ (97 ≤ c.toNat ∧ c.toNat ≤ 122) ∨
      (48 ≤ c.toNat ∧ c.toNat ≤ 57)) := by
  simp only [isAlnumA, isUpperA, isLowerA, isDigitA, Bool.or_eq_true, Bool.and_eq_true,
    decide_eq_true_eq]
  tauto

theorem toLowerA_of_not_upper {c : Char} (h : isUpperA c = false) : toLowerA c = c := by
  simp [toLowerA, h]

theorem toNat_toLowerA_of_upper {c : Char} (h : isUpperA c = true) :
    (toLowerA c).toNat = c.toNat + 32 := by
  simp only [toLowerA, h, if_true]
  have hb := (isUpperA_iff c).mp h
  exact toNat_ofNat_small _ (by omega)

theorem isUpperA_toLowerA (c : Char) : isUpperA (toLowerA c) = false := by
  by_cases h : isUpperA c = true
  · have hn := toNat_toLowerA_of_upper h
    have hb := (isUpperA_iff c).mp h
    apply Bool.eq_false_iff.mpr
    intro hcontra
    rw [isUpperA_iff, hn] at hcontra
    omega
  · rw [toLowerA_of_not_upper (by simpa using h)]
    simpa using h

theorem isLowerA_or_digit_toLowerA {c : Char} (h : isAlnumA c = true) :
    (isLowerA (toLowerA c) || isDigitA (toLowerA c)) = true := by
  rw [isAlnumA_iff] at h
  by_cases hu : isUpperA c = true
  · have hn := toNat_toLowerA_of_upper hu
    have hb := (isUpperA_iff c).mp hu
    rw [Bool.or_eq_true, isLowerA_iff, isDigitA_iff, hn]
    omega
  · rw [toLowerA_of_not_upper (by simpa using hu)]
    rw [isUpperA_iff] at hu
    rw [Bool.or_eq_true, isLowerA_iff, isDigitA_iff]
    omega

theorem isAlnumA_of_lower_or_digit {c : Char} (h : (isLowerA c || isDigitA c) = true) :
    isAlnumA c = true := by
  simp only [isAlnumA, Bool.or_eq_true] at *
  tauto

theorem not_upper_of_lower_or_digit {c : Char} (h : (isLowerA c || isDigitA c) = true) :
    isUpperA c = false := by
  rw [Bool.or_eq_true, isLowerA_iff, isDigitA_iff] at h
  apply Bool.eq_false_iff.mpr
  rw [Ne, isUpperA_iff]
  omega

theorem ne_of_toNat_ne {c : Char} {n : Nat} (hc : c.toNat ≠ n) (d : Char)
    (hd : d.toNat = n) : c ≠ d := by
  intro h
  rw [h, hd] at hc
  exact hc rfl

theorem alnum_ne_underscore {c : Char} (h : isAlnumA c = true) : c ≠ '_' := by
  rw [isAlnumA_iff] at h
  exact ne_of_toNat_ne (n := 95) (by omega) '_' (by decide)

theorem lower_or_digit_ne_underscore {c : Char} (h : (isLowerA c || isDigitA c) = true) :
    c ≠ '_' :=
  alnum_ne_underscore (isAlnumA_of_lower_or_digit h)

theorem lower_or_digit_ne_hyphen {c : Char} (h : (isLowerA c || isDigitA c) = true) :
    c ≠ '-' := by
  rw [Bool.or_eq_true, isLowerA_iff, isDigitA_iff] at h
  exact ne_of_toNat_ne (n := 45) (by omega) '-' (by decide)

theorem lower_or_digit_ne_space {c : Char} (h : (isLowerA c || isDigitA c) = true) :
    c ≠ ' ' := by
  rw [Bool.or_eq_true, isLowerA_iff, isDigitA_iff] at h
  exact ne_of_toNat_ne (n := 32) (by omega) ' ' (by decide)

theorem isAlphaA_ne_underscore {c : Char} (h : isAlphaA c = true) : c ≠ '_' := by
  apply alnum_ne_underscore
  simp only [isAlnumA, isAlphaA, Bool.or_eq_true] at *
  tauto

theorem toLowerA_isAlphaA {c : Char} (h : isAlphaA c = true) : isAlphaA (toLowerA c) = true := by
  by_cases hu : isUpperA c = true
  · have hn := toNat_toLowerA_of_upper hu
    have hb := (isUpperA_iff c).mp hu
    rw [isAlphaA_iff, hn]
    omega
  · rw [toLowerA_of_not_upper (by simpa using hu)]
    exact h

theorem alookup_amInsert_self {β : Type} (m : List (String × β)) (k : String) (v : β) :
    alookup (amInsert m k v) k = some v := by
  induction m with
  | nil => simp [amInsert, alookup]
  | cons p rest ih =>
    by_cases h : p.1 = k
    · simp [amInsert, h, alookup]
    · simp [amInsert, h, alookup, ih]

theorem alookup_amInsert_ne {β : Type} (m : List (String × β)) {k k2 : String} (v : β)
    (h : k ≠ k2) : alookup (amInsert m k v) k2 = alookup m k2 := by
  induction m with
  | nil => simp [amInsert, alookup, h]
  | cons p rest ih =>
    by_cases hp : p.1 = k
    · have hp2 : p.1 ≠ k2 := hp ▸ h
      simp [amInsert, hp, alookup, h, hp2]
    · by_cases hp2 : p.1 = k2
      · have h2 : k2 ≠ k := fun hh => h hh.symm
        simp [amInsert, hp, alookup, hp2, h2]
      · simp [amInsert, hp, alookup, hp2, ih]

theorem foldInserts_nil {β : Type} (m : List (String × β)) : foldInserts [] m = m := rfl

theorem foldInserts_cons {β : Type} (w : String × β) (ws : List (String × β))
    (m : List (String × β)) : foldInserts (w :: ws) m = foldInserts ws (amInsert m w.1 w.2) :=
  rfl

theorem keyCount_nil {β : Type} (k : String) : keyCount ([] : List (String × β)) k = 0 := rfl

theorem keyCount_cons {β : Type} (w : String × β) (ws : List (String × β)) (k : String) :
    keyCount (w :: ws) k = if w.1 = k then keyCount ws k + 1 else keyCount ws k := by
  by_cases h : w.1 = k <;> simp [keyCount, List.filter_cons, h]

theorem keyCount_eq_zero {β : Type} {ws : List (String × β)} {k : String}
    (h : keyCount ws k = 0) : k ∉ ws.map Prod.fst := by
  induction ws with
  | nil => simp
  | cons w rest ih =>
    rw [keyCount_cons] at h
    by_cases hw : w.1 = k
    · rw [if_pos hw] at h
      omega
    · rw [if_neg hw] at h
      simp only [List.map_cons, List.mem_cons]
      push_neg
      exact ⟨fun hk => hw hk.symm, ih h⟩

theorem alookup_foldInserts_not_mem {β : Type} (ws : List (String × β))
    (m : List (String × β)) (k : String) (h : k ∉ ws.map Prod.fst) :
    alookup (foldInserts ws m) k = alookup m k := by
  induction ws generalizing m with
  | nil => rfl
  | cons w rest ih =>
    simp only [List.map_cons, List.mem_cons] at h
    push_neg at h
    rw [foldInserts_cons, ih _ h.2]
    exact alookup_amInsert_ne m w.2 (fun hk => h.1 hk.symm)

theorem alookup_foldInserts_unique {β : Type} (ws : List (String × β))
    (m : List (String × β)) (k : String) (v : β)
    (hc : keyCount ws k = 1) (hm : (k, v) ∈ ws) :
    alookup (foldInserts ws m) k = some v := by
  induction ws generalizing m with
  | nil => cases hm
  | cons w rest ih =>
    rw [foldInserts_cons]
    rw [keyCount_cons] at hc
    by_cases hw : w.1 = k
    · rw [if_pos hw] at hc
      have hz : keyCount rest k = 0 := by omega
      have hrest := keyCount_eq_zero hz
      have hv : w = (k, v) := by
        rcases List.mem_cons.mp hm with h1 | h2
        · exact h1.symm
        · exact absurd (List.mem_map_of_mem Prod.fst h2) hrest
      rw [alookup_foldInserts_not_mem rest _ k hrest, hv]
      exact alookup_amInsert_self m k v
    · rw [if_neg hw] at hc
      have hm2 : (k, v) ∈ rest := by
        rcases List.mem_cons.mp hm with h1 | h2
        · exact absurd (congrArg Prod.fst h1.symm) hw
        · exact h2
      exact ih (amInsert m w.1 w.2) hc hm2

theorem isSome_alookup_foldInserts {β : Type} (ws : List (String × β))
    (m : List (String × β)) (k : String) (h : k ∈ ws.map Prod.fst) :
    (alookup (foldInserts ws m) k).isSome = true := by
  induction ws generalizing m with
  | nil => cases h
  | cons w rest ih =>
    rw [foldInserts_cons]
    rw [List.map_cons] at h
    by_cases hr : k ∈ rest.map Prod.fst
    · exact ih _ hr
    · have hw : w.1 = k := by
        rcases List.mem_cons.mp h with h1 | h2
        · exact h1.symm
        · exact absurd h2 hr
      rw [alookup_foldInserts_not_mem rest _ k hr, hw, alookup_amInsert_self]
      rfl

theorem chLe_total (a b : List Char) : chLe a b = true ∨ chLe b a = true := by
  induction a generalizing b with
  | nil => left; rfl
  | cons x xs ih =>
    cases b with
    | nil => right; rfl
    | cons y ys =>
      by_cases hxy : x = y
      · subst hxy
        rcases ih ys with h | h
        · left; simpa [chLe] using h
        · right; simpa [chLe] using h
      · have hne : x.toNat ≠ y.toNat := fun hn => hxy (char_eq_of_toNat_eq hn)
        by_cases hlt : x.toNat < y.toNat
        · left; simp [chLe, hxy, hlt]
        · right
          have hyx : ¬y = x := fun h => hxy h.symm
          have hlt2 : y.toNat < x.toNat := by omega
          simp [chLe, hyx, hlt2]

theorem chLe_trans {a b c : List Char} (h1 : chLe a b = true) (h2 : chLe b c = true) :
    chLe a c = true := by
  induction a generalizing b c with
  | nil => rfl
  | cons x xs ih =>
    cases b with
    | nil => simp [chLe] at h1
    | cons y ys =>
      cases c with
      | nil => simp [chLe] at h2
      | cons z zs =>
        by_cases hxy : x = y
        · subst hxy
          by_cases hyz : x = z
          · subst hyz
            simp only [chLe, if_pos rfl] at *
            exact ih h1 h2
          · simp only [chLe, if_pos rfl] at h1
            simpa [chLe, hyz] using h2
        · by_cases hyz : y = z
          · subst hyz
            simpa [chLe, hxy] using h1
          · simp only [chLe, if_neg hxy, decide_eq_true_eq] at h1
            simp only [chLe, if_neg hyz, decide_eq_true_eq] at h2
            have hxz : x.toNat < z.toNat := by omega
            have : x ≠ z := fun he => by
              rw [he] at h1
              omega
            simp [chLe, this, hxz]

theorem strLe_total (a b : String) : strLe a b = true ∨ strLe b a = true :=
  chLe_total a.data b.data

theorem strLe_trans {a b c : String} (h1 : strLe a b = true) (h2 : strLe b c = true) :
    strLe a c = true :=
  chLe_trans h1 h2

theorem mem_insertSorted (a s : String) (l : List String) :
    a ∈ insertSorted s l ↔ a = s ∨ a ∈ l := by
  induction l with
  | nil => simp [insertSorted]
  | cons t ts ih =>
    by_cases h : strLe s t = true
    · simp [insertSorted, h]
    · simp only [insertSorted, if_neg h, List.mem_cons, ih]
      tauto

theorem pairwise_insertSorted (s : String) (l : List String)
    (h : l.Pairwise (fun a b => strLe a b = true)) :
    (insertSorted s l).Pairwise (fun a b => strLe a b = true) := by
  induction l with
  | nil => simp [insertSorted]
  | cons t ts ih =>
    rcases List.pairwise_cons.mp h with ⟨ht, hts⟩
    by_cases hle : strLe s t = true
    · rw [show insertSorted s (t :: ts) = s :: t :: ts from by
        simp only [insertSorted, if_pos hle]]
      refine List.pairwise_cons.mpr ⟨?_, h⟩
      intro b hb
      rcases List.mem_cons.mp hb with rfl | hb
      · exact hle
      · exact strLe_trans hle (ht b hb)
    · rw [show insertSorted s (t :: ts) = t :: insertSorted s ts from by
        simp only [insertSorted, if_neg hle]]
      have hts2 := ih hts
      refine List.pairwise_cons.mpr ⟨?_, hts2⟩
      intro b hb
      rcases (mem_insertSorted b s ts).mp hb with hbs | hb
      · subst hbs
        rcases strLe_total b t with h1 | h1
        · exact absurd h1 hle
        · exact h1
      · exact ht b hb

theorem pairwise_sortStrings (l : List String) :
    (sortStrings l).Pairwise (fun a b => strLe a b = true) := by
  induction l with
  | nil => exact List.Pairwise.nil
  | cons s ss ih => exact pairwise_insertSorted s (sortStrings ss) ih

theorem mem_sortStrings (a : String) (l : List String) :
    a ∈ sortStrings l ↔ a ∈ l := by
  induction l with
  | nil => simp [sortStrings]
  | cons s ss ih => simp [sortStrings, mem_insertSorted, ih]

/-! ## Claim theorems -/

/-- C1: evaluation of the cited `process_smart_names` at the failing input
`"user"`.  Because the hook branch only tests the case-insensitive `"use"`
prefix (with no 4th-character semantic-boundary check), the hook name stays
`"user"` instead of the `"useUser"` required by the claim, while the
context, provider and page names agree with the claim; `"useAuth"` is kept
unchanged as claimed. -/
theorem C1_process_smart_names_user_divergence :
    (process_smart_names "user").hook_name = "user" ∧
    (process_smart_names "user").hook_name ≠ "useUser" ∧
    (process_smart_names "user").context_name = "UserContext" ∧
    (process_smart_names "user").provider_name = "UserProvider" ∧
    (process_smart_names "user").page_name = "UserPage" ∧
    (process_smart_names "useAuth").hook_name = "useAuth" := by
  refine ⟨by decide, by decide, by decide, by decide, by decide, by decide⟩

/-- C5: the condition evaluator is a total boolean function, and any
condition whose trimmed form is neither `always` nor `default` and does not
start with `var_` evaluates to `false` (the affected file is skipped, the
run does not fail). -/
theorem C5_evaluate_total_and_unrecognized_false
    (condition : String) (vars : List (String × String)) :
    (evaluate_file_condition condition vars = true ∨
      evaluate_file_condition condition vars = false) ∧
    (chTrim condition.data ≠ "always".data →
      chTrim condition.data ≠ "default".data →
      chPrefix "var_".data (chTrim condition.data) = false →
      evaluate_file_condition condition vars = false) := by
  constructor
  · rcases Bool.eq_false_or_eq_true (evaluate_file_condition condition vars) with h | h
    · exact Or.inl h
    · exact Or.inr h
  · intro h1 h2 h3
    simp only [evaluate_file_condition, if_neg h1, if_neg h2, h3]
    rfl

/-- C5 witness: the unrecognized condition `banana` evaluates to `false` on
the empty variable map. -/
theorem C5_witness : evaluate_file_condition "banana" [] = false :=
  (C5_evaluate_total_and_unrecognized_false "banana" []).2 (by decide) (by decide) (by decide)

/-- C8: architecture loading fallback, over an explicit directory content
and with the JSON syntax treated as parsed at the boundary: when the
requested manifest is absent the load behaves exactly like loading the
default architecture; the hard `NotFound` error occurs exactly when neither
the requested manifest nor `default.json` exists; and a present requested
manifest is the one loaded. -/
theorem C8_architecture_fallback (fs : List (String × String)) (name : String) :
    (alookup fs (arch_manifest_filename name) = none →
      load_from_file fs name = load_from_file fs "default") ∧
    (load_from_file fs name = ArchLoad.hardError ↔
      alookup fs (arch_manifest_filename name) = none ∧
      alookup fs "default.json" = none) ∧
    (∀ c, alookup fs (arch_manifest_filename name) = some c →
      load_from_file fs name = ArchLoad.loaded (arch_manifest_filename name) c) := by
  refine ⟨?_, ?_, ?_⟩
  · intro h
    simp only [load_from_file, h]
    have hd : arch_manifest_filename "default" = "default.json" := rfl
    rw [hd]
    cases alookup fs "default.json" <;> rfl
  · constructor
    · intro h
      rcases hr : alookup fs (arch_manifest_filename name) with _ | c
      · rcases hd : alookup fs "default.json" with _ | d
        · exact ⟨rfl, rfl⟩
        · simp [load_from_file, hr, hd] at h
      · simp [load_from_file, hr] at h
    · rintro ⟨h1, h2⟩
      simp [load_from_file, h1, h2]
  · intro c h
    simp [load_from_file, h]

/-- C8 witness: concrete cases of the fallback behaviour. -/
theorem C8_witness :
    load_from_file [("a.json", "A")] "a" = ArchLoad.loaded "a.json" "A" ∧
    load_from_file [("default.json", "D")] "b" = ArchLoad.loaded "default.json" "D" ∧
    load_from_file [] "b" = ArchLoad.hardError := by
  refine ⟨(C8_architecture_fallback [("a.json", "A")] "a").2.2 "A" (by decide), ?_, ?_⟩
  · rw [(C8_architecture_fallback [("default.json", "D")] "b").1 (by decide)]
    decide
  · exact ((C8_architecture_fallback [] "b").2.1).mpr ⟨by decide, by decide⟩

/-- C9: the implicit default inclusion of `process_template_directory`: a
file whose normalized relative path has no entry in the filter map is
generated unconditionally, also when the filter map is non-empty; a file
with a listed rule is generated exactly according to its evaluated
condition. -/
theorem C9_unlisted_files_generated (file_filters vars : List (String × String))
    (filename : String) :
    (alookup file_filters filename = none →
      should_generate_file file_filters vars filename = true) ∧
    (∀ c, alookup file_filters filename = some c →
      should_generate_file file_filters vars filename = evaluate_file_condition c vars) := by
  constructor
  · intro h
    cases file_filters with
    | nil => rfl
    | cons f fs => simp [should_generate_file, h]
  · intro c h
    cases file_filters with
    | nil => simp [alookup] at h
    | cons f fs => simp [should_generate_file, h]

/-- C9 witness: with a non-empty filter map, a file that has no rule is
generated, and a file with a rule follows its condition. -/
theorem C9_witness :
    should_generate_file [("a.spec.tsx", "var_with_tests")] [] "b.tsx" = true ∧
    should_generate_file [("a.spec.tsx", "var_with_tests")] [] "a.spec.tsx" = false := by
  constructor
  · exact (C9_unlisted_files_generated [("a.spec.tsx", "var_with_tests")] [] "b.tsx").1
      (by decide)
  · rw [(C9_unlisted_files_generated [("a.spec.tsx", "var_with_tests")] [] "a.spec.tsx").2
      "var_with_tests" (by decide)]
    decide

/-- C10: interface asymmetry between `template_exists` and
`list_templates`: existence is any directory entry with the requested name
(file, directory or hidden); the listing contains exactly the non-hidden
directory names, in `strLe`-sorted order; and in the concrete state with a
single regular file `x`, the template exists but is absent from the
listing. -/
theorem C10_exists_vs_list :
    (∀ (entries : List DirEntry) (t : String),
      template_exists (some entries) t = true ↔ ∃ e ∈ entries, e.name = t) ∧
    (∀ t, template_exists none t = false) ∧
    (∀ d, (list_templates d).Pairwise (fun a b => strLe a b = true)) ∧
    (∀ (entries : List DirEntry) (t : String),
      t ∈ list_templates (some entries) ↔
        ∃ e ∈ entries, e.name = t ∧ e.isDir = true ∧ chPrefix ['.'] t.data = false) ∧
    (template_exists (some [⟨"x", false⟩]) "x" = true ∧
      "x" ∉ list_templates (some [⟨"x", false⟩])) := by
  refine ⟨?_, fun t => rfl, ?_, ?_, by decide, by decide⟩
  · intro entries t
    simp [template_exists, List.any_eq_true]
  · intro d
    cases d with
    | none => exact List.Pairwise.nil
    | some entries => exact pairwise_sortStrings _
  · intro entries t
    simp only [list_templates, mem_sortStrings, List.mem_map, List.mem_filter,
      Bool.and_eq_true, Bool.not_eq_true']
    constructor
    · rintro ⟨e, ⟨he, hd, hh⟩, rfl⟩
      exact ⟨e, he, rfl, hd, hh⟩
    · rintro ⟨e, he, rfl, hd, hh⟩
      exact ⟨e, ⟨he, hd, hh⟩, rfl⟩

theorem strMk_data (s : String) : String.mk s.data = s := by
  cases s
  rfl

theorem strData_append (s t : String) : (s ++ t).data = s.data ++ t.data := rfl

theorem strEq_mk_iff (s : String) (l : List Char) : s = String.mk l ↔ s.data = l := by
  cases s
  exact ⟨fun h => by injection h, fun h => by rw [show l = ([] : List Char) ++ l from rfl] at h ⊢; cases h; rfl⟩

theorem varcons_ne_always (xs : List Char) :
    'v' :: 'a' :: 'r' :: '_' :: xs ≠ ['a', 'l', 'w', 'a', 'y', 's'] := by
  intro h
  injection h with h1 _
  exact absurd h1 (by decide)

theorem varcons_ne_default (xs : List Char) :
    'v' :: 'a' :: 'r' :: '_' :: xs ≠ ['d', 'e', 'f', 'a', 'u', 'l', 't'] := by
  intro h
  injection h with h1 _
  exact absurd h1 (by decide)

theorem chPrefix_var (xs : List Char) :
    chPrefix ['v', 'a', 'r', '_'] ('v' :: 'a' :: 'r' :: '_' :: xs) = true := by
  simp [chPrefix]

theorem splitAtFirst_eq_takeDrop (sep : Char) (l : List Char) (h : sep ∈ l) :
    splitAtFirst sep l =
      some (l.takeWhile (fun c => !(c = sep)), (l.dropWhile (fun c => !(c = sep))).tail) := by
  induction l with
  | nil => cases h
  | cons c cs ih =>
    by_cases hc : c = sep
    · subst hc
      simp [splitAtFirst, List.takeWhile_cons, List.dropWhile_cons]
    · have hm : sep ∈ cs := by
        rcases List.mem_cons.mp h with h1 | h1
        · exact absurd h1.symm hc
        · exact h1
      simp [splitAtFirst, hc, ih hm, List.takeWhile_cons, List.dropWhile_cons]

/-- Normal form of the evaluator on a condition of the shape `var_` + X that
is unaffected by trimming. -/
theorem evaluate_var_normal_form (X : String) (vars : List (String × String))
    (htrim : chTrim ("var_" ++ X).data = ("var_" ++ X).data) :
    evaluate_file_condition ("var_" ++ X) vars =
      (match alookup vars X with
       | some value => is_truthy value
       | none =>
         match splitAtFirst '_' X.data with
         | some (pre, post) =>
           (match alookup vars (String.mk pre) with
            | some v =>
              (decide (v = String.mk (replaceChar '_' '-' post)) ||
                decide (v = String.mk post))
            | none => false)
         | none => false) := by
  have hdata : ("var_" ++ X).data = 'v' :: 'a' :: 'r' :: '_' :: X.data := by
    rw [strData_append]
    rfl
  simp only [evaluate_file_condition]
  rw [htrim, hdata]
  rw [if_neg (varcons_ne_always X.data), if_neg (varcons_ne_default X.data)]
  rw [if_pos (chPrefix_var X.data)]
  rw [show List.drop 4 ('v' :: 'a' :: 'r' :: '_' :: X.data) = X.data from rfl, strMk_data]

/-- C2 counterexample: with X = `"a "` (trailing space) and the variable map
mapping `"a "` to the truthy value `"true"`, the condition `"var_" + X`
evaluates to `false`, although X is exactly a key of the map and its value
is truthy — the evaluator trims the condition string first, so the claim as
stated (for every condition string and variable map) fails. -/
theorem C2_counterexample :
    evaluate_file_condition ("var_" ++ "a ") [("a ", "true")] = false ∧
    is_truthy "true" = true := by
  refine ⟨by decide, by decide⟩

/-- C2 as amended: for a condition `var_` + X that is unaffected by
trimming, an exact variable-name match returns the truthiness of the value
(and always takes priority, whatever the split-by-underscore comparison
would give); and when X is not an exact key but contains an underscore, the
evaluation is true exactly when the variable named by the segment before
the first underscore exists and equals the segment after it, verbatim or
with underscores converted to hyphens. -/
theorem C2_var_condition_semantics (X : String) (vars : List (String × String))
    (htrim : chTrim ("var_" ++ X).data = ("var_" ++ X).data) :
    (∀ v, alookup vars X = some v →
      evaluate_file_condition ("var_" ++ X) vars = is_truthy v) ∧
    (alookup vars X = none → '_' ∈ X.data →
      (evaluate_file_condition ("var_" ++ X) vars = true ↔
        ∃ cur, alookup vars (String.mk (X.data.takeWhile (fun c => !(c = '_')))) = some cur ∧
          (cur.data = (X.data.dropWhile (fun c => !(c = '_'))).tail ∨
            cur.data = replaceChar '_' '-' ((X.data.dropWhile (fun c => !(c = '_'))).tail)))) := by
  rw [evaluate_var_normal_form X vars htrim]
  constructor
  · intro v hv
    rw [hv]
  · intro hnone hmem
    rw [hnone, splitAtFirst_eq_takeDrop '_' X.data hmem]
    rcases hp : alookup vars (String.mk (X.data.takeWhile (fun c => !(c = '_')))) with _ | cur
    · simp [hp]
    · simp only [hp, Bool.or_eq_true, decide_eq_true_eq]
      constructor
      · rintro (h | h)
        · exact ⟨cur, rfl, Or.inr (by rw [(strEq_mk_iff _ _).mp h])⟩
        · exact ⟨cur, rfl, Or.inl (by rw [(strEq_mk_iff _ _).mp h])⟩
      · rintro ⟨cur2, hcur2, h | h⟩
        · injection hcur2 with hcur2
          subst hcur2
          exact Or.inr ((strEq_mk_iff _ _).mpr h)
        · injection hcur2 with hcur2
          subst hcur2
          exact Or.inl ((strEq_mk_iff _ _).mpr h)

/-- C2 witness: concrete uses of the amended semantics — an exact truthy
match, and a value comparison with the hyphen conversion. -/
theorem C2_witness :
    evaluate_file_condition ("var_" ++ "with_tests") [("with_tests", "true")] = is_truthy "true" ∧
    (evaluate_file_condition ("var_" ++ "style_styled_components")
      [("style", "styled-components")] = true) := by
  constructor
  · exact (C2_var_condition_semantics "with_tests" [("with_tests", "true")] (by decide)).1
      "true" (by decide)
  · exact ((C2_var_condition_semantics "style_styled_components"
      [("style", "styled-components")] (by decide)).2 (by decide) (by decide)).mpr
      ⟨"styled-components", by decide, Or.inr (by decide)⟩

theorem dropWhile_all_false {p : Char → Bool} {l : List Char}
    (h : ∀ c ∈ l, p c = false) : l.dropWhile p = l := by
  cases l with
  | nil => rfl
  | cons c cs => simp [List.dropWhile_cons, h c (List.mem_cons_self c cs)]

theorem takeWhile_all_true {p : Char → Bool} {l : List Char}
    (h : ∀ c ∈ l, p c = true) : l.takeWhile p = l := by
  induction l with
  | nil => rfl
  | cons c cs ih =>
    rw [List.takeWhile_cons, h c (List.mem_cons_self c cs)]
    rw [ih (fun d hd => h d (List.mem_cons_of_mem c hd))]
    rfl

theorem chTrim_of_no_ws {l : List Char} (h : ∀ c ∈ l, isWsA c = false) : chTrim l = l := by
  unfold chTrim
  rw [dropWhile_all_false h]
  rw [dropWhile_all_false (fun c hc => h c (List.mem_reverse.mp hc))]
  exact List.reverse_reverse l

theorem trimMatchesChar_id {l : List Char} {q : Char} (h : ∀ c ∈ l, c ≠ q) :
    trimMatchesChar l q = l := by
  unfold trimMatchesChar
  have h1 : ∀ c ∈ l, decide (c = q) = false := fun c hc => by
    simpa using h c hc
  rw [dropWhile_all_false h1]
  rw [dropWhile_all_false (fun c hc => h1 c (List.mem_reverse.mp hc))]
  exact List.reverse_reverse l

theorem splitP_ne_nil (p : Char → Bool) (l : List Char) : splitP p l ≠ [] := by
  cases l with
  | nil => simp [splitP]
  | cons c cs =>
    by_cases h : p c = true
    · simp [splitP, h]
    · simp only [splitP, h]
      rcases hs : splitP p cs with _ | ⟨w, ws⟩ <;> simp

theorem splitP_all_false {p : Char → Bool} {l : List Char}
    (h : ∀ c ∈ l, p c = false) : splitP p l = [l] := by
  induction l with
  | nil => rfl
  | cons c cs ih =>
    have hc := h c (List.mem_cons_self c cs)
    have hcs := ih (fun d hd => h d (List.mem_cons_of_mem c hd))
    simp [splitP, hc, hcs]

theorem splitP_append_sep {p : Char → Bool} {a : List Char} (sep : Char)
    (rest : List Char) (ha : ∀ c ∈ a, p c = false) (hsep : p sep = true) :
    splitP p (a ++ sep :: rest) = a :: splitP p rest := by
  induction a with
  | nil => simp [splitP, hsep]
  | cons c cs ih =>
    have hc := ha c (List.mem_cons_self c cs)
    have hcs := ih (fun d hd => ha d (List.mem_cons_of_mem c hd))
    simp [splitP, hc, hcs]

theorem splitAtFirst_append {a : List Char} (sep : Char) (rest : List Char)
    (ha : ∀ c ∈ a, c ≠ sep) :
    splitAtFirst sep (a ++ sep :: rest) = some (a, rest) := by
  induction a with
  | nil => simp [splitAtFirst]
  | cons c cs ih =>
    have hc := ha c (List.mem_cons_self c cs)
    have hcs := ih (fun d hd => ha d (List.mem_cons_of_mem c hd))
    simp [splitAtFirst, hc, hcs]

theorem getLast?_mem {l : List Char} {c : Char} (h : l.getLast? = some c) : c ∈ l := by
  induction l with
  | nil => simp [List.getLast?] at h
  | cons d ds ih =>
    cases ds with
    | nil =>
      simp [List.getLast?] at h
      simp [h]
    | cons e es =>
      rw [List.getLast?_cons_cons] at h
      exact List.mem_cons_of_mem d (ih h)

theorem stripTrailingCR_of_no_cr {l : List Char} (h : ∀ c ∈ l, c ≠ crChar) :
    stripTrailingCR l = l := by
  unfold stripTrailingCR
  rcases hl : l.getLast? with _ | c
  · rfl
  · show (if c = crChar then l.dropLast else l) = l
    rw [if_neg (h c (getLast?_mem hl))]

theorem cleanChar_ranges {c : Char} (h : (isAlnumA c || c = '-' || c = '_') = true) :
    c.toNat = 45 ∨ c.toNat = 95 ∨ (48 ≤ c.toNat ∧ c.toNat ≤ 57) ∨
      (65 ≤ c.toNat ∧ c.toNat ≤ 90) ∨ (97 ≤ c.toNat ∧ c.toNat ≤ 122) := by
  simp only [Bool.or_eq_true, decide_eq_true_eq] at h
  rcases h with (h | h) | h
  · rw [isAlnumA_iff] at h
    tauto
  · subst h
    left
    rfl
  · subst h
    right
    left
    rfl

theorem cleanChar_not_ws {c : Char} (h : (isAlnumA c || c = '-' || c = '_') = true) :
    isWsA c = false := by
  have hr := cleanChar_ranges h
  apply Bool.eq_false_iff.mpr
  intro hw
  simp only [isWsA, Bool.or_eq_true, Bool.and_eq_true, decide_eq_true_eq] at hw
  omega

theorem cleanChar_ne {c : Char} (h : (isAlnumA c || c = '-' || c = '_') = true)
    {n : Nat} (hn : n = 10 ∨ n = 13 ∨ n = 35 ∨ n = 61 ∨ n = 34 ∨ n = 39)
    (d : Char) (hd : d.toNat = n) : c ≠ d := by
  have hr := cleanChar_ranges h
  exact ne_of_toNat_ne (by omega) d hd

theorem cleanValue_mem {v : String} (hv : cleanConfValue v = true) :
    ∀ c ∈ v.data, (isAlnumA c || c = '-' || c = '_') = true := by
  intro c hc
  exact List.all_eq_true.mp hv c hc

theorem rustLines_three (s1 s2 s3 : String)
    (h1 : ∀ c ∈ s1.data, decide (c = nlChar) = false)
    (h2 : ∀ c ∈ s2.data, decide (c = nlChar) = false)
    (h3 : ∀ c ∈ s3.data, decide (c = nlChar) = false)
    (c1 : ∀ c ∈ s1.data, c ≠ crChar)
    (c2 : ∀ c ∈ s2.data, c ≠ crChar)
    (c3 : ∀ c ∈ s3.data, c ≠ crChar)
    (hne : s3.data ≠ []) :
    rustLines (s1 ++ "\n" ++ s2 ++ "\n" ++ s3) = [s1, s2, s3] := by
  have hd : (s1 ++ "\n" ++ s2 ++ "\n" ++ s3).data =
      s1.data ++ nlChar :: (s2.data ++ nlChar :: s3.data) := by
    rw [strData_append, strData_append, strData_append, strData_append]
    rw [show ("\n" : String).data = [nlChar] from by decide]
    simp [List.append_assoc]
  have hsplit : splitP (fun c => c = nlChar) (s1 ++ "\n" ++ s2 ++ "\n" ++ s3).data =
      [s1.data, s2.data, s3.data] := by
    rw [hd]
    rw [splitP_append_sep nlChar _ h1 (by simp)]
    rw [splitP_append_sep nlChar _ h2 (by simp)]
    rw [splitP_all_false h3]
  rcases he : s3.data with _ | ⟨c, cs⟩
  · exact absurd he hne
  · simp only [rustLines, hsplit, he, List.getLast?_cons_cons, List.getLast?_singleton]
    have hmap : stripTrailingCR s1.data = s1.data := stripTrailingCR_of_no_cr c1
    have hmap2 : stripTrailingCR s2.data = s2.data := stripTrailingCR_of_no_cr c2
    have hmap3 : stripTrailingCR (c :: cs) = c :: cs :=
      stripTrailingCR_of_no_cr (he ▸ c3)
    simp only [List.map_cons, List.map_nil, hmap, hmap2, hmap3, strMk_data]
    rw [← he, strMk_data]

theorem parse_config_line_keyval (cfg : TemplateConfig) (sec k v : String)
    (hk : ∀ c ∈ k.data, (isAlnumA c || c = '-' || c = '_') = true)
    (hk0 : k.data ≠ [])
    (hv : cleanConfValue v = true) :
    parse_config_line (cfg, sec) (k ++ "=" ++ v) =
      (if sec = "metadata" then (parse_metadata_section cfg k v, sec)
       else if sec = "options" then (parse_options_section cfg k v, sec)
       else if sec = "files" then
        ({ cfg with file_filters := amInsert cfg.file_filters k v }, sec)
       else (parse_root_config cfg k v, sec)) := by
  have hvm := cleanValue_mem hv
  have hdata : (k ++ "=" ++ v).data = k.data ++ '=' :: v.data := by
    rw [strData_append, strData_append]
    rw [show ("=" : String).data = ['='] from rfl]
    simp [List.append_assoc]
  have hnws : ∀ c ∈ (k ++ "=" ++ v).data, isWsA c = false := by
    intro c hc
    rw [hdata] at hc
    rcases List.mem_append.mp hc with hc | hc
    · exact cleanChar_not_ws (hk c hc)
    · rcases List.mem_cons.mp hc with rfl | hc
      · decide
      · exact cleanChar_not_ws (hvm c hc)
  have htrim : chTrim (k ++ "=" ++ v).data = (k ++ "=" ++ v).data := chTrim_of_no_ws hnws
  rcases hke : k.data with _ | ⟨kc, kcs⟩
  · exact absurd hke hk0
  · have hkc : (isAlnumA kc || kc = '-' || kc = '_') = true :=
      hk kc (by rw [hke]; exact List.mem_cons_self kc kcs)
    have hkcr := cleanChar_ranges hkc
    have hhash : ¬('#' = kc) := fun hh => by
      rw [← hh] at hkcr
      revert hkcr
      decide
    have hbr : ¬('[' = kc) := fun hh => by
      rw [← hh] at hkcr
      revert hkcr
      decide
    have hline : (k ++ "=" ++ v).data = kc :: (kcs ++ '=' :: v.data) := by
      rw [hdata, hke]
      rfl
    have htrim2 : chTrim (kc :: (kcs ++ '=' :: v.data)) = kc :: (kcs ++ '=' :: v.data) := by
      rw [← hline]
      exact htrim
    simp only [parse_config_line, hline, htrim2]
    rw [show chPrefix ['#'] (kc :: (kcs ++ '=' :: v.data)) = false from by
      simp [chPrefix, hhash]]
    rw [show chPrefix ['['] (kc :: (kcs ++ '=' :: v.data)) = false from by
      simp [chPrefix, hbr]]
    simp only [Bool.false_and, Bool.false_eq_true, if_false, List.isEmpty_cons]
    rw [show (kc :: (kcs ++ '=' :: v.data)) = k.data ++ '=' :: v.data from by
      rw [hke]; rfl]
    rw [splitAtFirst_append '=' v.data (fun c hc =>
      cleanChar_ne (n := 61) (hk c hc) (by tauto) '=' (by decide))]
    have hkey : String.mk (chTrim k.data) = k := by
      rw [chTrim_of_no_ws (fun c hc => cleanChar_not_ws (hk c hc)), strMk_data]
    have hval0 : takeUntilChar '#' v.data = v.data := by
      apply takeWhile_all_true
      intro c hc
      have := cleanChar_ne (n := 35) (hvm c hc) (by tauto) '#' (by decide)
      simpa using this
    have hval : String.mk (trimMatchesChar (trimMatchesChar (chTrim v.data) dquoteChar)
        squoteChar) = v := by
      rw [chTrim_of_no_ws (fun c hc => cleanChar_not_ws (hvm c hc))]
      rw [trimMatchesChar_id (fun c hc =>
        cleanChar_ne (n := 34) (hvm c hc) (by tauto) dquoteChar (by decide))]
      rw [trimMatchesChar_id (fun c hc =>
        cleanChar_ne (n := 39) (hvm c hc) (by tauto) squoteChar (by decide))]
    simp only [hval0, hkey, hval]

theorem cleanValue_no_nl {v : String} (hv : cleanConfValue v = true) :
    ∀ c ∈ v.data, decide (c = nlChar) = false := by
  intro c hc
  simpa using cleanChar_ne (n := 10) (cleanValue_mem hv c hc) (by tauto) nlChar (by decide)

theorem cleanValue_no_cr {v : String} (hv : cleanConfValue v = true) :
    ∀ c ∈ v.data, c ≠ crChar := fun c hc =>
  cleanChar_ne (n := 13) (cleanValue_mem hv c hc) (by tauto) crChar (by decide)

theorem keyval_no_nl {k v : String}
    (hk : ∀ c ∈ k.data, decide (c = nlChar) = false) (hv : cleanConfValue v = true) :
    ∀ c ∈ (k ++ "=" ++ v).data, decide (c = nlChar) = false := by
  intro c hc
  rw [strData_append, strData_append] at hc
  rcases List.mem_append.mp hc with hc | hc
  · rcases List.mem_append.mp hc with hc | hc
    · exact hk c hc
    · have hce : c = '=' := by simpa using hc
      subst hce
      decide
  · exact cleanValue_no_nl hv c hc

theorem keyval_no_cr {k v : String}
    (hk : ∀ c ∈ k.data, c ≠ crChar) (hv : cleanConfValue v = true) :
    ∀ c ∈ (k ++ "=" ++ v).data, c ≠ crChar := by
  intro c hc
  rw [strData_append, strData_append] at hc
  rcases List.mem_append.mp hc with hc | hc
  · rcases List.mem_append.mp hc with hc | hc
    · exact hk c hc
    · have hce : c = '=' := by simpa using hc
      subst hce
      decide
  · exact cleanValue_no_cr hv c hc

/-- C7 counterexample: the manifest with duplicate `name` keys `A` then `B`
parses to metadata name `B`, not the first value `A` — the first occurrence
does not win. -/
theorem C7_counterexample :
    (parse_template_config "[metadata]\nname=A\nname=B" none).metadata.name = "B" ∧
    ("B" : String) ≠ "A" := by
  refine ⟨by decide, by decide⟩

/-- C7 as amended: for duplicate `name` (or `description`) assignments in
the metadata section, the LAST occurrence wins — the parsed metadata holds
the value of the second assignment, for any two clean values. -/
theorem C7_metadata_last_wins (v1 v2 : String)
    (h1 : cleanConfValue v1 = true) (h2 : cleanConfValue v2 = true) :
    (parse_template_config
      ("[metadata]" ++ "\n" ++ ("name=" ++ v1) ++ "\n" ++ ("name=" ++ v2))
      none).metadata.name = v2 ∧
    (parse_template_config
      ("[metadata]" ++ "\n" ++ ("description=" ++ v1) ++ "\n" ++ ("description=" ++ v2))
      none).metadata.description = v2 := by
  have hkn : ∀ c ∈ ("name" : String).data, (isAlnumA c || c = '-' || c = '_') = true := by
    decide
  have hkd : ∀ c ∈ ("description" : String).data,
      (isAlnumA c || c = '-' || c = '_') = true := by decide
  constructor
  · rw [show parse_template_config
        ("[metadata]" ++ "\n" ++ ("name=" ++ v1) ++ "\n" ++ ("name=" ++ v2)) none =
        ((rustLines ("[metadata]" ++ "\n" ++ ("name=" ++ v1) ++ "\n" ++ ("name=" ++ v2))).foldl
          parse_config_line (TemplateConfig.defaultCfg none, "")).1 from rfl]
    rw [rustLines_three "[metadata]" ("name=" ++ v1) ("name=" ++ v2)
      (by decide) (keyval_no_nl (k := "name") (v := v1) (by decide) h1)
      (keyval_no_nl (k := "name") (v := v2) (by decide) h2)
      (by decide) (keyval_no_cr (k := "name") (v := v1) (by decide) h1)
      (keyval_no_cr (k := "name") (v := v2) (by decide) h2)
      (by rw [strData_append]; rw [show ("name=" : String).data ++ v2.data =
        'n' :: ("ame=".data ++ v2.data) from rfl]; exact List.cons_ne_nil _ _)]
    rw [List.foldl_cons, List.foldl_cons, List.foldl_cons, List.foldl_nil]
    rw [show parse_config_line (TemplateConfig.defaultCfg none, "") "[metadata]" =
      (TemplateConfig.defaultCfg none, "metadata") from by decide]
    rw [show ("name=" : String) = "name" ++ "=" from by decide]
    rw [parse_config_line_keyval _ _ "name" v1 hkn (by decide) h1]
    rw [if_pos rfl]
    rw [parse_config_line_keyval _ _ "name" v2 hkn (by decide) h2]
    rw [if_pos rfl]
    rfl
  · rw [show parse_template_config
        ("[metadata]" ++ "\n" ++ ("description=" ++ v1) ++ "\n" ++ ("description=" ++ v2))
        none =
        ((rustLines ("[metadata]" ++ "\n" ++ ("description=" ++ v1) ++ "\n" ++
          ("description=" ++ v2))).foldl
          parse_config_line (TemplateConfig.defaultCfg none, "")).1 from rfl]
    rw [rustLines_three "[metadata]" ("description=" ++ v1) ("description=" ++ v2)
      (by decide) (keyval_no_nl (k := "description") (v := v1) (by decide) h1)
      (keyval_no_nl (k := "description") (v := v2) (by decide) h2)
      (by decide) (keyval_no_cr (k := "description") (v := v1) (by decide) h1)
      (keyval_no_cr (k := "description") (v := v2) (by decide) h2)
      (by rw [strData_append]; rw [show ("description=" : String).data ++ v2.data =
        'd' :: ("escription=".data ++ v2.data) from rfl]; exact List.cons_ne_nil _ _)]
    rw [List.foldl_cons, List.foldl_cons, List.foldl_cons, List.foldl_nil]
    rw [show parse_config_line (TemplateConfig.defaultCfg none, "") "[metadata]" =
      (TemplateConfig.defaultCfg none, "metadata") from by decide]
    rw [show ("description=" : String) = "description" ++ "=" from by decide]
    rw [parse_config_line_keyval _ _ "description" v1 hkd (by decide) h1]
    rw [if_pos rfl]
    rw [parse_config_line_keyval _ _ "description" v2 hkd (by decide) h2]
    rw [if_pos rfl]
    rfl

/-- C7 witness: the amended last-wins behaviour at the concrete values `A`
and `B`. -/
theorem C7_witness :
    (parse_template_config
      ("[metadata]" ++ "\n" ++ ("name=" ++ "A") ++ "\n" ++ ("name=" ++ "B"))
      none).metadata.name = "B" :=
  (C7_metadata_last_wins "A" "B" (by decide) (by decide)).1

theorem foldInserts_append {β : Type} (a b : List (String × β)) (m : List (String × β)) :
    foldInserts (a ++ b) m = foldInserts b (foldInserts a m) := by
  simp [foldInserts, List.foldl_append]

theorem foldInserts_map_pairs {α : Type} (g : α → String × JsonVal) (l : List α)
    (m : List (String × JsonVal)) :
    foldInserts (l.map g) m = l.foldl (fun acc x => amInsert acc (g x).1 (g x).2) m := by
  simp [foldInserts, List.foldl_map]

theorem generate_boolean_helpers_eq_foldInserts (vars : List (String × String))
    (os : List (String × VariableOption)) (m : List (String × JsonVal)) :
    generate_boolean_helpers vars os m = foldInserts (helperWrites vars os) m := by
  induction os generalizing m with
  | nil => rfl
  | cons p rest ih =>
    have hstep : ∀ m0 : List (String × JsonVal),
        (let m1 :=
          if !p.2.possible_values.isEmpty then
            match alookup vars p.1 with
            | some current =>
              p.2.possible_values.foldl
                (fun acc pv =>
                  amInsert acc (p.1 ++ "_is_" ++ sanitizeValue pv)
                    (JsonVal.bool (decide (current = pv))))
                m0
            | none => m0
          else m0
        if p.2.var_type = "boolean" then
          match alookup vars p.1 with
          | some v => amInsert m1 (p.1 ++ "_bool") (JsonVal.bool (is_truthy v))
          | none => m1
        else m1) = foldInserts (helperWritesFor vars p.1 p.2) m0 := by
      intro m0
      rw [helperWritesFor, foldInserts_append]
      by_cases hpv : p.2.possible_values.isEmpty
      · rcases hl : alookup vars p.1 with _ | cur
        · by_cases ht : p.2.var_type = "boolean" <;>
            simp [hpv, hl, ht, foldInserts]
        · by_cases ht : p.2.var_type = "boolean" <;>
            simp [hpv, hl, ht, foldInserts]
      · rcases hl : alookup vars p.1 with _ | cur
        · by_cases ht : p.2.var_type = "boolean" <;>
            simp [hpv, hl, ht, foldInserts]
        · by_cases ht : p.2.var_type = "boolean" <;>
            simp [hpv, hl, ht, foldInserts, List.foldl_map]
    rw [show generate_boolean_helpers vars (p :: rest) m =
      generate_boolean_helpers vars rest
        (let m1 :=
          if !p.2.possible_values.isEmpty then
            match alookup vars p.1 with
            | some current =>
              p.2.possible_values.foldl
                (fun acc pv =>
                  amInsert acc (p.1 ++ "_is_" ++ sanitizeValue pv)
                    (JsonVal.bool (decide (current = pv))))
                m
            | none => m
          else m
        if p.2.var_type = "boolean" then
          match alookup vars p.1 with
          | some v => amInsert m1 (p.1 ++ "_bool") (JsonVal.bool (is_truthy v))
          | none => m1
        else m1) from rfl]
    rw [hstep m, ih]
    rw [show helperWrites vars (p :: rest) =
      helperWritesFor vars p.1 p.2 ++ helperWrites vars rest from by
        simp [helperWrites]]
    rw [foldInserts_append]

theorem userfold_eq_foldInserts (vars : List (String × String))
    (m : List (String × JsonVal)) :
    vars.foldl (fun m kv => amInsert m kv.1 (JsonVal.str kv.2)) m =
      foldInserts (vars.map (fun kv => (kv.1, JsonVal.str kv.2))) m := by
  simp [foldInserts, List.foldl_map]

theorem alookup_userfold {vars : List (String × String)} (m : List (String × JsonVal))
    (k v : String) (hnd : (vars.map Prod.fst).Nodup) (hv : alookup vars k = some v) :
    alookup (vars.foldl (fun m kv => amInsert m kv.1 (JsonVal.str kv.2)) m) k =
      some (JsonVal.str v) := by
  induction vars generalizing m with
  | nil => simp [alookup] at hv
  | cons p rest ih =>
    rw [List.foldl_cons]
    rw [List.map_cons, List.nodup_cons] at hnd
    by_cases hp : p.1 = k
    · have hvv : p.2 = v := by
        rw [alookup, if_pos hp] at hv
        injection hv
      have hrest : k ∉ rest.map Prod.fst := hp ▸ hnd.1
      rw [userfold_eq_foldInserts]
      rw [alookup_foldInserts_not_mem _ _ k (by
        rw [List.map_map]
        simpa using hrest)]
      rw [hp, hvv]
      exact alookup_amInsert_self m k (JsonVal.str v)
    · rw [alookup, if_neg hp] at hv
      exact ih (amInsert m p.1 (JsonVal.str p.2)) hnd.2 hv

theorem chPrefix_append (pat t : List Char) : chPrefix pat (pat ++ t) = true := by
  induction pat with
  | nil => rfl
  | cons p ps ih => simp [chPrefix, ih]

theorem listInfix_nil (l : List Char) : listInfix [] l = true := by
  cases l <;> simp [listInfix, chPrefix]

theorem listInfix_of_append {pat l : List Char} (s t : List Char)
    (h : (s ++ pat) ++ t = l) : listInfix pat l = true := by
  induction s generalizing l with
  | nil =>
    subst h
    rw [show (([] ++ pat) ++ t : List Char) = pat ++ t from by simp]
    cases pat with
    | nil => exact listInfix_nil t
    | cons p ps =>
      rw [show ((p :: ps) ++ t : List Char) = p :: (ps ++ t) from rfl]
      rw [show listInfix (p :: ps) (p :: (ps ++ t)) =
        (chPrefix (p :: ps) (p :: (ps ++ t)) || listInfix (p :: ps) (ps ++ t)) from rfl]
      rw [show chPrefix (p :: ps) (p :: (ps ++ t)) = (p = p && chPrefix ps (ps ++ t)) from by
        simp [chPrefix]]
      rw [chPrefix_append]
      simp
  | cons c cs ih =>
    subst h
    rw [show ((c :: cs ++ pat) ++ t : List Char) = c :: ((cs ++ pat) ++ t) from by simp]
    rw [show listInfix pat (c :: ((cs ++ pat) ++ t)) =
      (chPrefix pat (c :: ((cs ++ pat) ++ t)) || listInfix pat ((cs ++ pat) ++ t)) from rfl]
    rw [ih rfl]
    simp

theorem helperWrites_key_shape (vars : List (String × String))
    (os : List (String × VariableOption)) :
    ∀ w ∈ helperWrites vars os,
      (∃ a b, w.1 = a ++ "_is_" ++ b) ∨ (∃ a, w.1 = a ++ "_bool") := by
  intro w hw
  rw [helperWrites] at hw
  rcases List.mem_flatten.mp hw with ⟨block, hblock, hwb⟩
  rcases List.mem_map.mp hblock with ⟨p, _, rfl⟩
  rw [helperWritesFor] at hwb
  rcases List.mem_append.mp hwb with hwb | hwb
  · by_cases hpv : p.2.possible_values.isEmpty
    · simp [hpv] at hwb
    · rcases hl : alookup vars p.1 with _ | cur
      · simp [hpv, hl] at hwb
      · rw [if_pos (by simpa using hpv), hl] at hwb
        rcases List.mem_map.mp hwb with ⟨pv, _, rfl⟩
        exact Or.inl ⟨p.1, sanitizeValue pv, rfl⟩
  · by_cases ht : p.2.var_type = "boolean"
    · rcases hl : alookup vars p.1 with _ | cur
      · simp [ht, hl] at hwb
      · rw [if_pos ht, hl] at hwb
        rcases List.mem_singleton.mp hwb with rfl
        exact Or.inr ⟨p.1, rfl⟩
    · simp [ht] at hwb

theorem structural_key_not_written (vars : List (String × String))
    (os : List (String × VariableOption)) (k : String)
    (h1 : listInfix "_is_".data k.data = false)
    (h2 : listInfix "_bool".data k.data = false) :
    k ∉ (helperWrites vars os).map Prod.fst := by
  intro hk
  rcases List.mem_map.mp hk with ⟨w, hw, hwk⟩
  rcases helperWrites_key_shape vars os w hw with ⟨a, b, hab⟩ | ⟨a, hab⟩
  · have : listInfix "_is_".data k.data = true := by
      apply listInfix_of_append a.data b.data
      rw [← hwk, hab, strData_append, strData_append]
    rw [this] at h1
    cases h1
  · have : listInfix "_bool".data k.data = true := by
      apply listInfix_of_append a.data []
      rw [List.append_nil, ← hwk, hab, strData_append]
    rw [this] at h2
    cases h2

/-- C3 counterexample: with a user variable `name = "EVIL"` in the template
config, the built render context maps the structural key `name` to the
user-supplied value `"EVIL"`, not to the base name `"Button"` — user
variables do silently overwrite structural name fields. -/
theorem C3_counterexample :
    alookup (create_template_data "Button"
      { TemplateConfig.defaultCfg none with vars := [("name", "EVIL")] } sampleEnv) "name" =
      some (JsonVal.str "EVIL") ∧
    ("EVIL" : String) ≠ "Button" := by
  refine ⟨by decide, by decide⟩

/-- C3 as amended: user-supplied variables DO overwrite the structural name
fields — for every template config whose variable map binds one of the
structural keys, the built context maps that key to the user-supplied
value (the user merge happens after the base object is built and the
boolean-helper keys, which all contain `_is_` or end in `_bool`, never
collide with a structural name key). -/
theorem C3_user_variables_override_structural (name : String) (cfg : TemplateConfig)
    (env : RuntimeEnv) (k v : String)
    (hk : k ∈ (["name", "hook_name", "context_name", "provider_name", "page_name",
      "pascal_name"] : List String))
    (hnd : (cfg.vars.map Prod.fst).Nodup)
    (hv : alookup cfg.vars k = some v) :
    alookup (create_template_data name cfg env) k = some (JsonVal.str v) := by
  have hinfix : listInfix "_is_".data k.data = false ∧
      listInfix "_bool".data k.data = false := by
    simp only [List.mem_cons, List.not_mem_nil, or_false] at hk
    rcases hk with rfl | rfl | rfl | rfl | rfl | rfl
    · exact ⟨by decide, by decide⟩
    · exact ⟨by decide, by decide⟩
    · exact ⟨by decide, by decide⟩
    · exact ⟨by decide, by decide⟩
    · exact ⟨by decide, by decide⟩
    · exact ⟨by decide, by decide⟩
  rw [show create_template_data name cfg env =
      generate_boolean_helpers cfg.vars cfg.options_metadata
        (cfg.vars.foldl (fun m kv => amInsert m kv.1 (JsonVal.str kv.2))
          (create_template_data name { cfg with vars := [], options_metadata := [] } env))
      from by
    simp only [create_template_data]
    rfl]
  rw [generate_boolean_helpers_eq_foldInserts]
  rw [alookup_foldInserts_not_mem _ _ k
    (structural_key_not_written cfg.vars cfg.options_metadata k hinfix.1 hinfix.2)]
  exact alookup_userfold _ k v hnd hv

/-- C3 witness: the amended override behaviour at a concrete config. -/
theorem C3_witness :
    alookup (create_template_data "Button"
      { TemplateConfig.defaultCfg none with vars := [("pascal_name", "X")] } sampleEnv)
      "pascal_name" = some (JsonVal.str "X") :=
  C3_user_variables_override_structural "Button"
    { TemplateConfig.defaultCfg none with vars := [("pascal_name", "X")] } sampleEnv
    "pascal_name" "X" (by decide) (by decide) (by decide)

theorem enum_write_mem (vars : List (String × String))
    (os : List (String × VariableOption)) (var : String) (meta : VariableOption)
    (current pv : String) (hos : (var, meta) ∈ os)
    (hpv : meta.possible_values ≠ []) (hcur : alookup vars var = some current)
    (hmem : pv ∈ meta.possible_values) :
    (var ++ "_is_" ++ sanitizeValue pv, JsonVal.bool (decide (current = pv))) ∈
      helperWrites vars os := by
  rw [helperWrites]
  apply List.mem_flatten.mpr
  refine ⟨helperWritesFor vars var meta, List.mem_map.mpr ⟨(var, meta), hos, rfl⟩, ?_⟩
  rw [helperWritesFor]
  apply List.mem_append_left
  rw [if_pos (by simpa using hpv), hcur]
  exact List.mem_map.mpr ⟨pv, hmem, rfl⟩

theorem bool_write_mem (vars : List (String × String))
    (os : List (String × VariableOption)) (var : String) (meta : VariableOption)
    (v : String) (hos : (var, meta) ∈ os) (ht : meta.var_type = "boolean")
    (hv : alookup vars var = some v) :
    (var ++ "_bool", JsonVal.bool (is_truthy v)) ∈ helperWrites vars os := by
  rw [helperWrites]
  apply List.mem_flatten.mpr
  refine ⟨helperWritesFor vars var meta, List.mem_map.mpr ⟨(var, meta), hos, rfl⟩, ?_⟩
  rw [helperWritesFor]
  apply List.mem_append_right
  rw [if_pos ht, hv]
  exact List.mem_singleton.mpr rfl

/-- C6 counterexample: two allowed values `a-b` and `a_b` sanitize to the
same helper key `style_is_a_b`; with current value `a-b` the first write is
`true` and the second overwrites it with `false`, so the final context does
not hold `true` for the allowed value `a-b` that the current value equals —
the claim as stated (one boolean per allowed value, true iff equal) fails. -/
theorem C6_counterexample :
    alookup (generate_boolean_helpers [("style", "a-b")]
      [("style", ⟨"", ["a-b", "a_b"], ""⟩)] []) "style_is_a_b" =
      some (JsonVal.bool false) ∧
    sanitizeValue "a-b" = sanitizeValue "a_b" ∧
    ("a-b" : String) ∈ ["a-b", "a_b"] ∧
    ("a-b" : String) = "a-b" := by
  refine ⟨by decide, by decide, by decide, rfl⟩

/-- C6 as amended: for a variable with a non-empty allowed-values list and
a current value, the context contains the key `{var}_is_{value}` (hyphens
converted to underscores in the key only) for every allowed value; when
that key is written exactly once over the whole helper pass (sanitized
values pairwise distinct and no cross-variable collision), its value is
true iff the current value equals the allowed value verbatim — otherwise
the last write wins.  Boolean-typed variables get `{var}_bool` with the
value's truthiness under the same uniqueness proviso.  The
scss/css/styled-components scenario of the claim holds in the full render
context. -/
theorem C6_boolean_helper_synthesis :
    (∀ (vars : List (String × String)) (os : List (String × VariableOption))
      (m : List (String × JsonVal)) (var : String) (meta : VariableOption)
      (current pv : String), (var, meta) ∈ os → meta.possible_values ≠ [] →
      alookup vars var = some current → pv ∈ meta.possible_values →
      ((alookup (generate_boolean_helpers vars os m)
        (var ++ "_is_" ++ sanitizeValue pv)).isSome = true ∧
      (keyCount (helperWrites vars os) (var ++ "_is_" ++ sanitizeValue pv) = 1 →
        alookup (generate_boolean_helpers vars os m) (var ++ "_is_" ++ sanitizeValue pv) =
          some (JsonVal.bool (decide (current = pv)))))) ∧
    (∀ (vars : List (String × String)) (os : List (String × VariableOption))
      (m : List (String × JsonVal)) (var : String) (meta : VariableOption)
      (v : String), (var, meta) ∈ os → meta.var_type = "boolean" →
      alookup vars var = some v →
      keyCount (helperWrites vars os) (var ++ "_bool") = 1 →
      alookup (generate_boolean_helpers vars os m) (var ++ "_bool") =
        some (JsonVal.bool (is_truthy v))) ∧
    (alookup (create_template_data "Button"
        { TemplateConfig.defaultCfg none with
            vars := [("style", "styled-components")]
            options_metadata := [("style", ⟨"", ["scss", "css", "styled-components"], ""⟩)] }
        sampleEnv) "style_is_styled_components" = some (JsonVal.bool true) ∧
      alookup (create_template_data "Button"
        { TemplateConfig.defaultCfg none with
            vars := [("style", "styled-components")]
            options_metadata := [("style", ⟨"", ["scss", "css", "styled-components"], ""⟩)] }
        sampleEnv) "style_is_scss" = some (JsonVal.bool false) ∧
      alookup (create_template_data "Button"
        { TemplateConfig.defaultCfg none with
            vars := [("style", "styled-components")]
            options_metadata := [("style", ⟨"", ["scss", "css", "styled-components"], ""⟩)] }
        sampleEnv) "style_is_css" = some (JsonVal.bool false)) := by
  refine ⟨?_, ?_, by decide, by decide, by decide⟩
  · intro vars os m var meta current pv hos hpv hcur hmem
    have hw := enum_write_mem vars os var meta current pv hos hpv hcur hmem
    rw [generate_boolean_helpers_eq_foldInserts]
    constructor
    · exact isSome_alookup_foldInserts _ _ _ (List.mem_map_of_mem Prod.fst hw)
    · intro hc
      exact alookup_foldInserts_unique _ _ _ _ hc hw
  · intro vars os m var meta v hos ht hv hc
    have hw := bool_write_mem vars os var meta v hos ht hv
    rw [generate_boolean_helpers_eq_foldInserts]
    exact alookup_foldInserts_unique _ _ _ _ hc hw

/-- C6 witness: the uniqueness-conditioned value of one helper key in the
concrete scss/css/styled-components scenario. -/
theorem C6_witness :
    alookup (generate_boolean_helpers [("style", "styled-components")]
      [("style", ⟨"", ["scss", "css", "styled-components"], ""⟩)] [])
      ("style" ++ "_is_" ++ sanitizeValue "styled-components") =
      some (JsonVal.bool (decide (("styled-components" : String) = "styled-components"))) :=
  ((C6_boolean_helper_synthesis.1 [("style", "styled-components")]
    [("style", ⟨"", ["scss", "css", "styled-components"], ""⟩)] []
    "style" ⟨"", ["scss", "css", "styled-components"], ""⟩
    "styled-components" "styled-components"
    (by decide) (by decide) (by decide) (by decide)).2 (by decide))

theorem lower_or_digit_of_alnum_not_upper {c : Char} (h1 : isAlnumA c = true)
    (h2 : isUpperA c = false) : (isLowerA c || isDigitA c) = true := by
  rw [isAlnumA_iff] at h1
  have h2b : ¬(65 ≤ c.toNat ∧ c.toNat ≤ 90) := by
    intro hc
    rw [(isUpperA_iff c).mpr hc] at h2
    cases h2
  rw [Bool.or_eq_true, isLowerA_iff, isDigitA_iff]
  omega

theorem splitP_component_chars {p : Char → Bool} (cs : List Char) :
    ∀ w ∈ splitP p cs, ∀ c ∈ w, p c = false := by
  induction cs with
  | nil =>
    intro w hw c hc
    rcases List.mem_singleton.mp hw with rfl
    cases hc
  | cons d ds ih =>
    intro w hw c hc
    by_cases hd : p d = true
    · rw [show splitP p (d :: ds) = [] :: splitP p ds from by simp [splitP, hd]] at hw
      rcases List.mem_cons.mp hw with rfl | hw
      · cases hc
      · exact ih w hw c hc
    · have hd2 : p d = false := by simpa using hd
      rcases hsp : splitP p ds with _ | ⟨w0, ws⟩
      · exact absurd hsp (splitP_ne_nil p ds)
      · rw [show splitP p (d :: ds) = (d :: w0) :: ws from by
          simp [splitP, hd2, hsp]] at hw
        rcases List.mem_cons.mp hw with rfl | hw
        · rcases List.mem_cons.mp hc with rfl | hc
          · exact hd2
          · exact ih w0 (by rw [hsp]; exact List.mem_cons_self w0 ws) c hc
        · exact ih w (by rw [hsp]; exact List.mem_cons_of_mem w0 hw) c hc

theorem splitP_component_mem {p : Char → Bool} (cs : List Char) :
    ∀ w ∈ splitP p cs, ∀ c ∈ w, c ∈ cs := by
  induction cs with
  | nil =>
    intro w hw c hc
    rcases List.mem_singleton.mp hw with rfl
    cases hc
  | cons d ds ih =>
    intro w hw c hc
    by_cases hd : p d = true
    · rw [show splitP p (d :: ds) = [] :: splitP p ds from by simp [splitP, hd]] at hw
      rcases List.mem_cons.mp hw with rfl | hw
      · cases hc
      · exact List.mem_cons_of_mem d (ih w hw c hc)
    · have hd2 : p d = false := by simpa using hd
      rcases hsp : splitP p ds with _ | ⟨w0, ws⟩
      · exact absurd hsp (splitP_ne_nil p ds)
      · rw [show splitP p (d :: ds) = (d :: w0) :: ws from by
          simp [splitP, hd2, hsp]] at hw
        rcases List.mem_cons.mp hw with rfl | hw
        · rcases List.mem_cons.mp hc with rfl | hc
          · exact List.mem_cons_self c ds
          · exact List.mem_cons_of_mem d
              (ih w0 (by rw [hsp]; exact List.mem_cons_self w0 ws) c hc)
        · exact List.mem_cons_of_mem d
            (ih w (by rw [hsp]; exact List.mem_cons_of_mem w0 hw) c hc)

theorem splitP_cons_of_not_sep {p : Char → Bool} {d : Char} (t : List Char)
    (hd : p d = false) :
    ∃ w ws, splitP p (d :: t) = (d :: w) :: ws ∧ splitP p t = w :: ws := by
  rcases hsp : splitP p t with _ | ⟨w0, ws⟩
  · exact absurd hsp (splitP_ne_nil p t)
  · exact ⟨w0, ws, by simp [splitP, hd, hsp], rfl⟩

theorem snakeStep1Aux_chars (cs : List Char) (i : Nat) :
    ∀ c ∈ snakeStep1Aux i cs, c = '_' ∨ isUpperA c = false := by
  induction cs generalizing i with
  | nil => intro c hc; cases hc
  | cons d ds ih =>
    intro c hc
    rw [snakeStep1Aux] at hc
    rcases List.mem_append.mp hc with hc | hc
    · by_cases hcase : (isUpperA d && decide (0 < i)) = true
      · rw [if_pos hcase] at hc
        rcases List.mem_cons.mp hc with rfl | hc
        · exact Or.inl rfl
        · rcases List.mem_singleton.mp hc with rfl
          exact Or.inr (isUpperA_toLowerA d)
      · rw [if_neg hcase] at hc
        rcases List.mem_singleton.mp hc with rfl
        exact Or.inr (isUpperA_toLowerA d)
    · exact ih (i + 1) c hc

theorem snakeStep1Aux_id {cs : List Char} (h : ∀ c ∈ cs, isUpperA c = false) :
    ∀ i, snakeStep1Aux i cs = cs := by
  induction cs with
  | nil => intro i; rfl
  | cons d ds ih =>
    intro i
    have hd := h d (List.mem_cons_self d ds)
    rw [snakeStep1Aux, hd]
    rw [show (false && decide (0 < i)) = false from rfl]
    rw [if_neg (by simp)]
    rw [toLowerA_of_not_upper hd]
    rw [ih (fun c hc => h c (List.mem_cons_of_mem d hc)) (i + 1)]
    rfl

theorem replaceChar_id {l : List Char} (h : ∀ c ∈ l, c ≠ '_') :
    replaceChar '_' '-' l = l := by
  induction l with
  | nil => rfl
  | cons c cs ih =>
    rw [replaceChar, List.map_cons]
    rw [if_neg (h c (List.mem_cons_self c cs))]
    rw [show List.map (fun c => if c = '_' then '-' else c) cs = replaceChar '_' '-' cs
      from rfl]
    rw [ih (fun d hd => h d (List.mem_cons_of_mem c hd))]

theorem joinSep_cons_ne {sep : List Char} {w : List Char} {ws : List (List Char)}
    (h : ws ≠ []) : joinSep sep (w :: ws) = w ++ sep ++ joinSep sep ws := by
  cases ws with
  | nil => exact absurd rfl h
  | cons a l => rfl

theorem joinSep_cons_cons (sep : List Char) (c : Char) (w : List Char)
    (ws : List (List Char)) :
    joinSep sep ((c :: w) :: ws) = c :: joinSep sep (w :: ws) := by
  cases ws with
  | nil => rfl
  | cons a l => rfl

theorem replaceChar_joinSep {ws : List (List Char)}
    (h : ∀ w ∈ ws, ∀ c ∈ w, c ≠ '_') :
    replaceChar '_' '-' (joinSep ['_'] ws) = joinSep ['-'] ws := by
  induction ws with
  | nil => rfl
  | cons w rest ih =>
    cases rest with
    | nil =>
      show replaceChar '_' '-' w = w
      exact replaceChar_id (h w (List.mem_cons_self w []))
    | cons w2 rest2 =>
      rw [joinSep_cons_ne (List.cons_ne_nil w2 rest2),
        joinSep_cons_ne (List.cons_ne_nil w2 rest2)]
      rw [show replaceChar '_' '-' ((w ++ ['_']) ++ joinSep ['_'] (w2 :: rest2)) =
        (replaceChar '_' '-' w ++ replaceChar '_' '-' ['_']) ++
          replaceChar '_' '-' (joinSep ['_'] (w2 :: rest2)) from by
        simp [replaceChar]]
      rw [replaceChar_id (h w (List.mem_cons_self w _))]
      rw [ih (fun u hu => h u (List.mem_cons_of_mem w hu))]
      rfl

theorem mem_joinSep {sep c : Char} {ws : List (List Char)}
    (h : c ∈ joinSep [sep] ws) : c = sep ∨ ∃ w ∈ ws, c ∈ w := by
  induction ws with
  | nil => cases h
  | cons w rest ih =>
    cases rest with
    | nil =>
      exact Or.inr ⟨w, List.mem_cons_self w [], h⟩
    | cons w2 rest2 =>
      rw [joinSep_cons_ne (List.cons_ne_nil w2 rest2)] at h
      rcases List.mem_append.mp h with hc | hc
      · rcases List.mem_append.mp hc with hc | hc
        · exact Or.inr ⟨w, List.mem_cons_self w _, hc⟩
        · exact Or.inl (List.mem_singleton.mp hc)
      · rcases ih hc with hc | ⟨u, hu, hcu⟩
        · exact Or.inl hc
        · exact Or.inr ⟨u, List.mem_cons_of_mem w hu, hcu⟩

theorem mem_joinSep_of_mem {sep c : Char} {w : List Char} {ws : List (List Char)}
    (hw : w ∈ ws) (hc : c ∈ w) : c ∈ joinSep [sep] ws := by
  induction ws with
  | nil => cases hw
  | cons w0 rest ih =>
    cases rest with
    | nil =>
      rcases List.mem_cons.mp hw with rfl | hw0
      · exact hc
      · cases hw0
    | cons w2 rest2 =>
      rw [joinSep_cons_ne (List.cons_ne_nil w2 rest2)]
      rcases List.mem_cons.mp hw with rfl | hw0
      · exact List.mem_append_left _ (List.mem_append_left _ hc)
      · exact List.mem_append_right _ (ih hw0)

theorem goodHyph_cons (c : Char) (cs : List Char) :
    goodHyph (c :: cs) =
      ((if c = '-' then
        (match cs with
         | [] => false
         | d :: _ => decide (d ≠ '-'))
       else true) && goodHyph cs) := rfl

theorem noLeadHyphen_cons (c : Char) (cs : List Char) :
    noLeadHyphen (c :: cs) = !(c = '-') := rfl

theorem wordsOf_joinSep_hyphen {ws : List (List Char)}
    (h : ∀ w ∈ ws, w ≠ [] ∧ ∀ c ∈ w, isAlnumA c = true) :
    wordsOf (joinSep ['-'] ws) = ws := by
  induction ws with
  | nil => rfl
  | cons w rest ih =>
    have hw := h w (List.mem_cons_self w rest)
    have hwp : ∀ c ∈ w, (fun c => !isAlnumA c) c = false := fun c hc => by
      simp [hw.2 c hc]
    cases rest with
    | nil =>
      show wordsOf w = [w]
      rw [wordsOf, splitP_all_false hwp]
      rw [List.filter_cons]
      rw [if_pos (by simpa using hw.1)]
      rfl
    | cons w2 rest2 =>
      rw [joinSep_cons_ne (List.cons_ne_nil w2 rest2)]
      rw [show ((w ++ ['-']) ++ joinSep ['-'] (w2 :: rest2) : List Char) =
        w ++ '-' :: joinSep ['-'] (w2 :: rest2) from by simp]
      rw [wordsOf, splitP_append_sep '-' _ hwp (by decide)]
      rw [List.filter_cons, if_pos (by simpa using hw.1)]
      rw [show List.filter (fun w => !w.isEmpty)
          (splitP (fun c => !isAlnumA c) (joinSep ['-'] (w2 :: rest2))) =
        wordsOf (joinSep ['-'] (w2 :: rest2)) from rfl]
      rw [ih (fun u hu => h u (List.mem_cons_of_mem w hu))]

theorem joinSep_splitP_hyphen {cs : List Char}
    (h : ∀ c ∈ cs, isAlnumA c = true ∨ c = '-') :
    joinSep ['-'] (splitP (fun c => !isAlnumA c) cs) = cs := by
  induction cs with
  | nil => rfl
  | cons d ds ih =>
    have hds := fun c hc => h c (List.mem_cons_of_mem d hc)
    rcases h d (List.mem_cons_self d ds) with hd | hd
    · have hd2 : (fun c => !isAlnumA c) d = false := by simp [hd]
      rcases splitP_cons_of_not_sep (p := fun c => !isAlnumA c) ds hd2 with ⟨w, ws, hsp, hsp2⟩
      rw [hsp, joinSep_cons_cons, ← hsp2, ih hds]
    · subst hd
      rw [show splitP (fun c => !isAlnumA c) ('-' :: ds) =
        [] :: splitP (fun c => !isAlnumA c) ds from by
        simp [splitP, show isAlnumA '-' = false from by decide]]
      rcases hsp : splitP (fun c => !isAlnumA c) ds with _ | ⟨w, ws⟩
      · exact absurd hsp (splitP_ne_nil _ ds)
      · rw [joinSep_cons_ne (List.cons_ne_nil w ws)]
        rw [← hsp, ih hds]
        rfl

theorem goodHyph_cons_of_not_hyphen {c : Char} {cs : List Char} (hc : ¬(c = '-'))
    (h : goodHyph (c :: cs) = true) : goodHyph cs = true := by
  rw [goodHyph_cons, if_neg hc, Bool.true_and] at h
  exact h

theorem splitP_tail_ne_nil {cs : List Char}
    (hc : ∀ c ∈ cs, isAlnumA c = true ∨ c = '-')
    (hg : goodHyph cs = true) :
    ∀ u ∈ (splitP (fun c => !isAlnumA c) cs).tail, u ≠ [] := by
  induction cs with
  | nil =>
    intro u hu
    cases hu
  | cons d ds ih =>
    intro u hu
    have hds := fun c hc2 => hc c (List.mem_cons_of_mem d hc2)
    rcases hc d (List.mem_cons_self d ds) with hd | hd
    · have hd2 : (fun c => !isAlnumA c) d = false := by simp [hd]
      rcases splitP_cons_of_not_sep (p := fun c => !isAlnumA c) ds hd2 with ⟨w, ws, hsp, hsp2⟩
      rw [hsp] at hu
      have hdh : ¬(d = '-') := by
        intro hh
        rw [hh] at hd
        revert hd
        decide
      have hg2 := goodHyph_cons_of_not_hyphen hdh hg
      apply ih hds hg2
      rw [hsp2]
      exact hu
    · subst hd
      rw [goodHyph_cons, if_pos rfl] at hg
      rcases hds2 : ds with _ | ⟨e, es⟩
      · rw [hds2] at hg
        simp at hg
      · rw [hds2] at hg
        rw [Bool.and_eq_true] at hg
        have hg1 : ¬(e = '-') := by
          have := hg.1
          simp only [decide_eq_true_eq] at this
          exact this
        have hmem : e ∈ '-' :: ds := by
          rw [hds2]
          exact List.mem_cons_of_mem '-' (List.mem_cons_self e es)
        have he : isAlnumA e = true := by
          rcases hc e hmem with h1 | h1
          · exact h1
          · exact absurd h1 hg1
        rw [show splitP (fun c => !isAlnumA c) ('-' :: ds) =
          [] :: splitP (fun c => !isAlnumA c) ds from by
          simp [splitP, show isAlnumA '-' = false from by decide]] at hu
        rw [List.tail_cons] at hu
        rcases splitP_cons_of_not_sep (p := fun c => !isAlnumA c) es (show (fun c => !isAlnumA c) e = false from by simp [he]) with ⟨w, ws, hsp, hsp2⟩
        rw [hds2, hsp] at hu
        rcases List.mem_cons.mp hu with rfl | hu
        · exact List.cons_ne_nil e w
        · have hg2 : goodHyph ds = true := by
            rw [hds2]
            exact hg.2
          apply ih hds hg2 u
          rw [hds2, hsp, List.tail_cons]
          exact hu

theorem wordsOf_eq_splitP {cs : List Char} (hne : cs ≠ [])
    (hlead : noLeadHyphen cs = true)
    (hc : ∀ c ∈ cs, isAlnumA c = true ∨ c = '-')
    (hg : goodHyph cs = true) :
    wordsOf cs = splitP (fun c => !isAlnumA c) cs := by
  rw [wordsOf]
  apply List.filter_eq_self.mpr
  intro w hw
  rcases cs with _ | ⟨d, ds⟩
  · exact absurd rfl hne
  · have hd : isAlnumA d = true := by
      rcases hc d (List.mem_cons_self d ds) with h1 | h1
      · exact h1
      · rw [noLeadHyphen_cons, h1] at hlead
        simp at hlead
    rcases splitP_cons_of_not_sep (p := fun c => !isAlnumA c) ds (show (fun c => !isAlnumA c) d = false from by simp [hd]) with ⟨w0, ws, hsp, hsp2⟩
    rw [hsp] at hw
    rcases List.mem_cons.mp hw with rfl | hw
    · simp
    · have := splitP_tail_ne_nil hc hg w (by rw [hsp, List.tail_cons]; exact hw)
      simpa using this

theorem any_eq_false_mem {p : Char → Bool} {l : List Char} (h : l.any p = false) :
    ∀ c ∈ l, p c = false := by
  intro c hc
  by_contra hcp
  rw [show l.any p = true from List.any_eq_true.mpr ⟨c, hc, by simpa using hcp⟩] at h
  cases h

theorem is_kebab_parts {s : String} (h : is_kebab_case s = true) :
    s.data ≠ [] ∧ (∀ c ∈ s.data, (isLowerA c || isDigitA c || c = '-') = true) ∧
    (∀ c ∈ s.data, c ≠ '_') ∧ (∀ c ∈ s.data, c ≠ ' ') ∧
    (∃ c ∈ s.data, isAlphaA c = true) := by
  rw [is_kebab_case] at h
  simp only [Bool.and_eq_true, Bool.not_eq_true'] at h
  obtain ⟨⟨⟨⟨h1, h2⟩, h3⟩, h4⟩, h5⟩ := h
  refine ⟨by simpa using h1, List.all_eq_true.mp h2, ?_, ?_, List.any_eq_true.mp h5⟩
  · intro c hc
    have := any_eq_false_mem h3 c hc
    simpa using this
  · intro c hc
    have := any_eq_false_mem h4 c hc
    simpa using this

theorem is_kebab_build {s : String} (h1 : s.data ≠ [])
    (h2 : ∀ c ∈ s.data, (isLowerA c || isDigitA c || c = '-') = true)
    (h3 : ∀ c ∈ s.data, c ≠ '_') (h4 : ∀ c ∈ s.data, c ≠ ' ')
    (h5 : ∃ c ∈ s.data, isAlphaA c = true) : is_kebab_case s = true := by
  rw [is_kebab_case]
  simp only [Bool.and_eq_true, Bool.not_eq_true']
  refine ⟨⟨⟨⟨by simpa using h1, List.all_eq_true.mpr h2⟩, ?_⟩, ?_⟩,
    List.any_eq_true.mpr h5⟩
  · apply Bool.eq_false_iff.mpr
    intro hany
    rcases List.any_eq_true.mp hany with ⟨c, hc, hcp⟩
    exact h3 c hc (by simpa using hcp)
  · apply Bool.eq_false_iff.mpr
    intro hany
    rcases List.any_eq_true.mp hany with ⟨c, hc, hcp⟩
    exact h4 c hc (by simpa using hcp)

theorem is_snake_parts {s : String} (h : is_snake_case s = true) :
    s.data ≠ [] ∧ (∀ c ∈ s.data, (isLowerA c || isDigitA c || c = '_') = true) ∧
    (∀ c ∈ s.data, c ≠ '-') ∧ (∀ c ∈ s.data, c ≠ ' ') ∧
    (∃ c ∈ s.data, isAlphaA c = true) := by
  rw [is_snake_case] at h
  simp only [Bool.and_eq_true, Bool.not_eq_true'] at h
  obtain ⟨⟨⟨⟨h1, h2⟩, h3⟩, h4⟩, h5⟩ := h
  refine ⟨by simpa using h1, List.all_eq_true.mp h2, ?_, ?_, List.any_eq_true.mp h5⟩
  · intro c hc
    have := any_eq_false_mem h3 c hc
    simpa using this
  · intro c hc
    have := any_eq_false_mem h4 c hc
    simpa using this

theorem is_snake_build {s : String} (h1 : s.data ≠ [])
    (h2 : ∀ c ∈ s.data, (isLowerA c || isDigitA c || c = '_') = true)
    (h3 : ∀ c ∈ s.data, c ≠ '-') (h4 : ∀ c ∈ s.data, c ≠ ' ')
    (h5 : ∃ c ∈ s.data, isAlphaA c = true) : is_snake_case s = true := by
  rw [is_snake_case]
  simp only [Bool.and_eq_true, Bool.not_eq_true']
  refine ⟨⟨⟨⟨by simpa using h1, List.all_eq_true.mpr h2⟩, ?_⟩, ?_⟩,
    List.any_eq_true.mpr h5⟩
  · apply Bool.eq_false_iff.mpr
    intro hany
    rcases List.any_eq_true.mp hany with ⟨c, hc, hcp⟩
    exact h3 c hc (by simpa using hcp)
  · apply Bool.eq_false_iff.mpr
    intro hany
    rcases List.any_eq_true.mp hany with ⟨c, hc, hcp⟩
    exact h4 c hc (by simpa using hcp)

theorem is_kebab_false_of_no_alpha {s : String}
    (h : s.data.any isAlphaA = false) : is_kebab_case s = false := by
  rw [is_kebab_case, h]
  simp

theorem is_snake_false_of_no_alpha {s : String}
    (h : s.data.any isAlphaA = false) : is_snake_case s = false := by
  rw [is_snake_case, h]
  simp

theorem is_snake_false_of_hyphen {s : String}
    (h : s.data.any (fun c => c = '-') = true) : is_snake_case s = false := by
  rw [is_snake_case, h]
  simp

theorem to_kebab_of_not_kebab {x : String} (h : is_kebab_case x = false) :
    to_kebab_case x = replaceUnderscores (to_snake_case x) := by
  rw [to_kebab_case, if_neg (by simp [h])]
  by_cases hu : (to_snake_case x).data.any (fun c => c = '_') = true
  · rw [if_pos hu]
  · rw [if_neg hu]
    have hu2 : '_' ∉ (to_snake_case x).data := by simpa using hu
    have hnu : ∀ c ∈ (to_snake_case x).data, c ≠ '_' := by
      intro c hc he
      exact hu2 (he ▸ hc)
    rw [replaceUnderscores, replaceChar_id hnu, strMk_data]

theorem to_kebab_of_kebab {x : String} (h : is_kebab_case x = true) :
    to_kebab_case x = x := by
  rw [to_kebab_case, if_pos h]

theorem wordsOf_snakeStep1_facts (x : String) :
    ∀ w ∈ wordsOf (snakeStep1 x.data),
      w ≠ [] ∧ ∀ c ∈ w, (isLowerA c || isDigitA c) = true := by
  intro w hw
  rw [wordsOf] at hw
  rcases List.mem_filter.mp hw with ⟨hw1, hw2⟩
  refine ⟨by simpa using hw2, ?_⟩
  intro c hc
  have halnum : isAlnumA c = true := by
    have := splitP_component_chars (snakeStep1 x.data) w hw1 c hc
    simpa using this
  have hmem := splitP_component_mem (snakeStep1 x.data) w hw1 c hc
  rcases snakeStep1Aux_chars x.data 0 c hmem with h1 | h1
  · exact absurd h1 (alnum_ne_underscore halnum)
  · exact lower_or_digit_of_alnum_not_upper halnum h1

theorem repl_joinSep {ws : List (List Char)}
    (h : ∀ w ∈ ws, ∀ c ∈ w, c ≠ '_') :
    replaceUnderscores (String.mk (joinSep ['_'] ws)) = String.mk (joinSep ['-'] ws) := by
  rw [replaceUnderscores]
  show String.mk (replaceChar '_' '-' (joinSep ['_'] ws)) = _
  rw [replaceChar_joinSep h]

theorem to_kebab_fixed_joinSep (ws : List (List Char))
    (hw : ∀ w ∈ ws, w ≠ [] ∧ ∀ c ∈ w, (isLowerA c || isDigitA c) = true) :
    to_kebab_case (String.mk (joinSep ['-'] ws)) = String.mk (joinSep ['-'] ws) := by
  by_cases halpha : ∃ w, w ∈ ws ∧ ∃ c ∈ w, isAlphaA c = true
  · obtain ⟨w0, hw0, c0, hc0, hc0a⟩ := halpha
    apply to_kebab_of_kebab
    apply is_kebab_build
    · show joinSep ['-'] ws ≠ []
      exact List.ne_nil_of_mem (mem_joinSep_of_mem hw0 hc0)
    · intro c hc
      rcases mem_joinSep hc with rfl | ⟨w, hwm, hcw⟩
      · simp
      · have h2 := (hw w hwm).2 c hcw
        rw [Bool.or_eq_true] at h2
        rcases h2 with h1 | h1 <;> simp [h1]
    · intro c hc
      rcases mem_joinSep hc with rfl | ⟨w, hwm, hcw⟩
      · decide
      · exact lower_or_digit_ne_underscore ((hw w hwm).2 c hcw)
    · intro c hc
      rcases mem_joinSep hc with rfl | ⟨w, hwm, hcw⟩
      · decide
      · exact lower_or_digit_ne_space ((hw w hwm).2 c hcw)
    · exact ⟨c0, mem_joinSep_of_mem hw0 hc0, hc0a⟩
  · have hany : (joinSep ['-'] ws).any isAlphaA = false := by
      apply Bool.eq_false_iff.mpr
      intro hcontra
      rcases List.any_eq_true.mp hcontra with ⟨c, hc, hca⟩
      rcases mem_joinSep hc with rfl | ⟨w, hwm, hcw⟩
      · revert hca
        decide
      · exact halpha ⟨w, hwm, c, hcw, hca⟩
    rw [to_kebab_of_not_kebab (is_kebab_false_of_no_alpha hany)]
    have hsn : is_snake_case (String.mk (joinSep ['-'] ws)) = false :=
      is_snake_false_of_no_alpha hany
    rw [to_snake_case, if_neg (by simp [hsn])]
    show replaceUnderscores
      (String.mk (joinSep ['_'] (wordsOf (snakeStep1 (joinSep ['-'] ws))))) = _
    rw [show snakeStep1 (joinSep ['-'] ws) = joinSep ['-'] ws from by
      rw [snakeStep1]
      apply snakeStep1Aux_id
      intro c hc
      rcases mem_joinSep hc with rfl | ⟨w, hwm, hcw⟩
      · decide
      · exact not_upper_of_lower_or_digit ((hw w hwm).2 c hcw)]
    rw [wordsOf_joinSep_hyphen (fun w hwm =>
      ⟨(hw w hwm).1, fun c hc => isAlnumA_of_lower_or_digit ((hw w hwm).2 c hc)⟩)]
    exact repl_joinSep (fun w hwm c hc =>
      lower_or_digit_ne_underscore ((hw w hwm).2 c hc))

theorem roundtrip_fixed_of_snake {x : String} (h : is_snake_case x = true) :
    to_kebab_case (replaceUnderscores (to_snake_case x)) =
      replaceUnderscores (to_snake_case x) := by
  rw [to_snake_case, if_pos h]
  obtain ⟨h1, h2, h3, h4, c0, hc0, hc0a⟩ := is_snake_parts h
  apply to_kebab_of_kebab
  apply is_kebab_build
  · show replaceChar '_' '-' x.data ≠ []
    intro he
    exact h1 (by simpa [replaceChar] using he)
  · intro c hc
    rcases List.mem_map.mp hc with ⟨d, hd, rfl⟩
    by_cases hdu : d = '_'
    · simp [hdu]
    · rw [if_neg hdu]
      have h5 := h2 d hd
      rw [Bool.or_eq_true, Bool.or_eq_true] at h5
      rcases h5 with (h6 | h6) | h6
      · simp [h6]
      · simp [h6]
      · exact absurd (by simpa using h6) hdu
  · intro c hc
    rcases List.mem_map.mp hc with ⟨d, hd, rfl⟩
    by_cases hdu : d = '_'
    · simp [hdu]
    · rw [if_neg hdu]
      exact hdu
  · intro c hc
    rcases List.mem_map.mp hc with ⟨d, hd, rfl⟩
    by_cases hdu : d = '_'
    · simp [hdu]
    · rw [if_neg hdu]
      exact h4 d hd
  · have hne : c0 ≠ '_' := isAlphaA_ne_underscore hc0a
    refine ⟨c0, ?_, hc0a⟩
    show c0 ∈ replaceChar '_' '-' x.data
    rw [replaceChar]
    exact List.mem_map.mpr ⟨c0, hc0, if_neg hne⟩

theorem roundtrip_fixed_of_not_snake {x : String} (h : is_snake_case x = false) :
    to_kebab_case (replaceUnderscores (to_snake_case x)) =
      replaceUnderscores (to_snake_case x) := by
  rw [to_snake_case, if_neg (by simp [h])]
  have hw := wordsOf_snakeStep1_facts x
  rw [repl_joinSep (fun w hwm c hc =>
    lower_or_digit_ne_underscore ((hw w hwm).2 c hc))]
  exact to_kebab_fixed_joinSep _ hw

theorem roundtrip_of_kebab {x : String} (hk : is_kebab_case x = true)
    (hg : goodKebabHyphens x.data = true) :
    to_kebab_case (replaceUnderscores (to_snake_case x)) = to_kebab_case x := by
  obtain ⟨h1, h2, h3, h4, halpha⟩ := is_kebab_parts hk
  rw [goodKebabHyphens, Bool.and_eq_true] at hg
  rw [to_kebab_of_kebab hk]
  by_cases hdash : x.data.any (fun c => c = '-') = true
  · have hsn : is_snake_case x = false := is_snake_false_of_hyphen hdash
    rw [to_snake_case, if_neg (by simp [hsn])]
    have hchars : ∀ c ∈ x.data, isAlnumA c = true ∨ c = '-' := by
      intro c hc
      have h5 := h2 c hc
      rw [Bool.or_eq_true, Bool.or_eq_true] at h5
      rcases h5 with (h6 | h6) | h6
      · exact Or.inl (isAlnumA_of_lower_or_digit (by simp [h6]))
      · exact Or.inl (isAlnumA_of_lower_or_digit (by simp [h6]))
      · exact Or.inr (by simpa using h6)
    have hnoupper : ∀ c ∈ x.data, isUpperA c = false := by
      intro c hc
      have h5 := h2 c hc
      rw [Bool.or_eq_true, Bool.or_eq_true] at h5
      rcases h5 with (h6 | h6) | h6
      · exact not_upper_of_lower_or_digit (by simp [h6])
      · exact not_upper_of_lower_or_digit (by simp [h6])
      · rw [show c = '-' from by simpa using h6]
        decide
    rw [show snakeStep1 x.data = x.data from by
      rw [snakeStep1]
      exact snakeStep1Aux_id hnoupper 0]
    rw [wordsOf_eq_splitP h1 hg.1 hchars hg.2]
    have hcomp : ∀ w ∈ splitP (fun c => !isAlnumA c) x.data, ∀ c ∈ w, c ≠ '_' :=
      fun w hwm c hc =>
        alnum_ne_underscore (by simpa using splitP_component_chars x.data w hwm c hc)
    rw [repl_joinSep hcomp]
    rw [joinSep_splitP_hyphen hchars]
    rw [strMk_data]
    exact to_kebab_of_kebab hk
  · have hnd : ∀ c ∈ x.data, c ≠ '-' := by
      have hdm : '-' ∉ x.data := by simpa using hdash
      intro c hc he
      exact hdm (he ▸ hc)
    have hsnchars : ∀ c ∈ x.data, (isLowerA c || isDigitA c || c = '_') = true := by
      intro c hc
      have h5 := h2 c hc
      rw [Bool.or_eq_true, Bool.or_eq_true] at h5
      rcases h5 with (h6 | h6) | h6
      · simp [h6]
      · simp [h6]
      · exact absurd (by simpa using h6) (hnd c hc)
    have hsn : is_snake_case x = true := is_snake_build h1 hsnchars hnd h4 halpha
    rw [to_snake_case, if_pos hsn]
    rw [show replaceUnderscores x = x from by
      rw [replaceUnderscores, replaceChar_id h3]]
    exact to_kebab_of_kebab hk

/-- C4 counterexample: at the input `"a--b"` (already kebab-case, with a
doubled hyphen) the snake conversion collapses the separators, so the left
side normalizes to `"a-b"` while the right side keeps `"a--b"` — the
round-trip fails as stated. -/
theorem C4_counterexample :
    to_kebab_case (replaceUnderscores (to_snake_case "a--b")) = "a-b" ∧
    to_kebab_case "a--b" = "a--b" ∧
    ("a-b" : String) ≠ "a--b" := by
  refine ⟨by decide, by decide, by decide⟩

/-- C4 as amended: the round-trip
`toKebabCase(toSnakeCase(x).replace('_','-')) = toKebabCase(x)` holds for
every input that, when it is already recognized as kebab-case, has no
leading, trailing or doubled hyphen (irregular hyphen runs are the only
failures: the kebab fast path preserves them while the snake pipeline
collapses them). -/
theorem C4_roundtrip_normalized (x : String)
    (hgood : is_kebab_case x = true → goodKebabHyphens x.data = true) :
    to_kebab_case (replaceUnderscores (to_snake_case x)) = to_kebab_case x := by
  by_cases hk : is_kebab_case x = true
  · exact roundtrip_of_kebab hk (hgood hk)
  · have hk2 : is_kebab_case x = false := by simpa using hk
    rw [to_kebab_of_not_kebab hk2]
    by_cases hs : is_snake_case x = true
    · exact roundtrip_fixed_of_snake hs
    · exact roundtrip_fixed_of_not_snake (by simpa using hs)

/-- C4 witness: the amended round-trip at two concrete inputs, one already
kebab-case with well-placed hyphens and one in PascalCase. -/
theorem C4_witness :
    to_kebab_case (replaceUnderscores (to_snake_case "hello-world")) =
      to_kebab_case "hello-world" ∧
    to_kebab_case (replaceUnderscores (to_snake_case "HelloWorld")) =
      to_kebab_case "HelloWorld" := by
  constructor
  · exact C4_roundtrip_normalized "hello-world" (fun _ => by decide)
  · exact C4_roundtrip_normalized "HelloWorld" (fun h => absurd h (by decide))
